import Mathlib

/-! Verification development for the macro-factor-rs client.

Shallow embedding of the repository (src/firestore.rs, src/models.rs,
src/client.rs, src/auth.rs) and verification of the frozen claims.

Modelling conventions:
* Rust `String` / `&str` is modelled as `List Char` (Unicode scalar values);
  Rust's byte-oriented operations (`str::len`, byte-range slicing) are
  modelled through each character's UTF-8 byte width (`Char.utf8Size`).
* `serde_json::Value` is the inductive `JVal` below; `serde_json::Number`'s
  three internal representations (`PosInt(u64)`, `NegInt(i64)`, `Float(f64)`)
  are the inductive `JNum`, whose derived equality matches serde_json's
  (cross-variant numbers are never equal).
* `f64` payloads are modelled as rationals.  Every theorem below evaluates
  floating-point operations only at points where they are exact in `f64`
  (small integers, and `2^63` which is a power of two), so this does not
  change any stated property.
* Fallible Rust code (`anyhow::Result`) is `Except (List Char) _`; a Rust
  panic (out-of-char-boundary string slicing) is modelled as `Option.none`
  at the function that would panic.
-/

/-- Rust strings as lists of Unicode scalar values. -/
abbrev Str := List Char

/-- Rust `str::len`: the UTF-8 byte length. -/
def utf8Len (s : Str) : Nat := (s.map Char.utf8Size).sum

/-- serde_json's internal number representation: `PosInt(u64)`,
`NegInt(i64)` (always negative), or `Float(f64)` (modelled as `Rat`).
Derived equality matches serde_json's `PartialEq for N`: numbers with
different representations are never equal. -/
inductive JNum where
  | posInt (n : Nat) : JNum
  | negInt (n : Int) : JNum
  | float (q : Rat) : JNum
deriving DecidableEq, Repr

/-- serde_json `Value`.  Objects are association lists in iteration order. -/
inductive JVal where
  | null : JVal
  | bool (b : Bool) : JVal
  | num (n : JNum) : JVal
  | str (s : Str) : JVal
  | arr (xs : List JVal) : JVal
  | obj (kvs : List (Str × JVal)) : JVal

namespace JNum

/-- Rust `i64::MAX`. -/
def i64Max : Int := 2 ^ 63 - 1

/-- Rust `i64::MIN`. -/
def i64Min : Int := -(2 ^ 63)

/-- Rust `serde_json::Number::as_i64`: `Some` exactly when the representation is
an integer representation in `i64` range; `Float` never converts. -/
def as_i64 : JNum → Option Int
  | posInt n => if (n : Int) ≤ i64Max then some (n : Int) else none
  | negInt n => some n
  | float _ => none

/-- Rust `serde_json::Number::as_f64`: lossy cast of integer representations,
identity on floats.  The cast is modelled as the exact rational; every
theorem in this file evaluates it only at `f64`-exact points. -/
def as_f64 : JNum → Option Rat
  | posInt n => some (n : Rat)
  | negInt n => some (n : Rat)
  | float q => some q

end JNum

/-! Section: Decimal strings

`i64::to_string` and `str::parse::<i64>` / `parse::<u32>` / `parse::<u64>`
(Rust's `FromStr` for integers: an optional sign, then one or more ASCII
digits, rejecting overflow). -/

/-- The ASCII digit character for `d < 10`. -/
def digitChar (d : Nat) : Char := Char.ofNat (48 + d)

/-- The value of an ASCII digit character, if it is one. -/
def digitVal (c : Char) : Option Nat :=
  if 48 ≤ c.toNat ∧ c.toNat ≤ 57 then some (c.toNat - 48) else none

/-- Little-endian base-10 digits, fuel-based so that it evaluates by kernel
reduction (shown equal to `Nat.digits 10` in `natDigits_eq`). -/
def natDigits : Nat → Nat → List Nat
  | 0, _ => []
  | _ + 1, 0 => []
  | fuel + 1, n + 1 => (n + 1) % 10 :: natDigits fuel ((n + 1) / 10)

theorem natDigits_eq : ∀ fuel n, n ≤ fuel → natDigits fuel n = Nat.digits 10 n := by
  intro fuel
  induction fuel with
  | zero =>
      intro n hn
      interval_cases n
      simp [natDigits]
  | succ fuel ih =>
      intro n hn
      cases n with
      | zero => simp [natDigits]
      | succ m =>
          rw [natDigits, ih ((m + 1) / 10) ?_, Nat.digits_def' (by norm_num) (Nat.succ_pos m)]
          have : (m + 1) / 10 < m + 1 := Nat.div_lt_self (Nat.succ_pos m) (by norm_num)
          omega

/-- Rust `u64::to_string` / the `Display` of a non-negative integer. -/
def natToStr (n : Nat) : Str :=
  if n = 0 then [digitChar 0] else ((natDigits n n).map digitChar).reverse

/-- Rust `i64::to_string`. -/
def intToStr (i : Int) : Str :=
  if i < 0 then Char.ofNat 45 :: natToStr i.natAbs else natToStr i.natAbs

/-- Digit-sequence value: `none` unless the string is one or more ASCII
digits. -/
def parseDigits : Str → Option Nat
  | [] => none
  | [c] => digitVal c
  | c :: rest => do
      let d ← digitVal c
      let r ← parseDigits rest
      pure (d * 10 ^ rest.length + r)

/-- Shared shape of Rust integer `FromStr`: strip an optional sign
(`-` only allowed when `signed`), then parse digits.  Returns
(negative?, magnitude). -/
def parseSigned (signed : Bool) (s : Str) : Option (Bool × Nat) :=
  match s with
  | c :: rest =>
      if c = Char.ofNat 43 then (parseDigits rest).map (false, ·)
      else if c = Char.ofNat 45 then
        if signed then (parseDigits rest).map (true, ·) else none
      else (parseDigits s).map (false, ·)
  | [] => none

/-- Rust `str::parse::<i64>`. -/
def parseI64 (s : Str) : Option Int :=
  match parseSigned true s with
  | some (false, m) => if (m : Int) ≤ JNum.i64Max then some (m : Int) else none
  | some (true, m) => if JNum.i64Min ≤ -(m : Int) then some (-(m : Int)) else none
  | none => none

/-- Rust `str::parse::<u32>`. -/
def parseU32 (s : Str) : Option Nat :=
  match parseSigned false s with
  | some (_, m) => if m ≤ 2 ^ 32 - 1 then some m else none
  | none => none

/-- Rust `str::parse::<u64>`. -/
def parseU64 (s : Str) : Option Nat :=
  match parseSigned false s with
  | some (_, m) => if m ≤ 2 ^ 64 - 1 then some m else none
  | none => none

/-- Model of Rust `str::parse::<f64>` restricted to plain decimal strings
(optional sign, digits, optional fractional part).  No theorem in this file
depends on the parsed value, only on the parse succeeding or failing. -/
def parseF64 (s : Str) : Option Rat :=
  let core : Str → Option Rat := fun t =>
    match t.splitOn (Char.ofNat 46) with
    | [w] => (parseDigits w).map (fun n => (n : Rat))
    | [w, f] => do
        let wn ← parseDigits w
        let fn ← parseDigits f
        pure ((wn : Rat) + (fn : Rat) / ((10 : Rat) ^ f.length))
    | _ => none
  match s with
  | c :: rest =>
      if c = Char.ofNat 43 then core rest
      else if c = Char.ofNat 45 then (core rest).map Neg.neg
      else core s
  | [] => none

/-- serde_json's `From<i64>` for `Number` (`json!(n)` on an `i64`):
non-negative values become the positive-integer representation, negative
values the negative-integer representation. -/
def i64ToJNum (i : Int) : JNum :=
  if 0 ≤ i then .posInt i.toNat else .negInt i

/-! Round-trip of decimal rendering and parsing. -/

/-- Big-endian value of a digit list. -/
def vBE : List Nat → Nat
  | [] => 0
  | d :: rest => d * 10 ^ rest.length + vBE rest

theorem vBE_append_singleton (xs : List Nat) (x : Nat) :
    vBE (xs ++ [x]) = vBE xs * 10 + x := by
  induction xs with
  | nil => simp [vBE]
  | cons d xs ih =>
      simp only [List.cons_append, vBE, List.append_eq, ih]
      have hlen : (xs ++ [x]).length = xs.length + 1 := by simp
      rw [hlen]; ring

theorem vBE_reverse_eq_ofDigits (L : List Nat) :
    vBE L.reverse = Nat.ofDigits 10 L := by
  induction L with
  | nil => simp [vBE]
  | cons x L ih =>
      rw [List.reverse_cons, vBE_append_singleton, ih, Nat.ofDigits_cons]
      ring

theorem digitVal_digitChar {d : Nat} (h : d < 10) :
    digitVal (digitChar d) = some d := by
  interval_cases d <;> decide

theorem digitChar_ne_plus {d : Nat} (h : d < 10) : digitChar d ≠ Char.ofNat 43 := by
  interval_cases d <;> decide

theorem digitChar_ne_minus {d : Nat} (h : d < 10) : digitChar d ≠ Char.ofNat 45 := by
  interval_cases d <;> decide

theorem parseDigits_map_digitChar (ds : List Nat) (hne : ds ≠ [])
    (hlt : ∀ d ∈ ds, d < 10) :
    parseDigits (ds.map digitChar) = some (vBE ds) := by
  induction ds with
  | nil => exact absurd rfl hne
  | cons d rest ih =>
      cases rest with
      | nil =>
          simp [parseDigits, digitVal_digitChar (hlt d (by simp)), vBE]
      | cons e rest' =>
          have hr := ih (by simp) (fun x hx => hlt x (List.mem_cons_of_mem _ hx))
          simp only [List.map_cons] at hr ⊢
          simp [parseDigits, digitVal_digitChar (hlt d (by simp)), hr, vBE,
            List.length_map]

theorem parseDigits_natToStr (n : Nat) : parseDigits (natToStr n) = some n := by
  by_cases h0 : n = 0
  · subst h0; decide
  · unfold natToStr
    rw [if_neg h0, natDigits_eq n n le_rfl, ← List.map_reverse]
    rw [parseDigits_map_digitChar _ (by
        simp only [ne_eq, List.reverse_eq_nil_iff]
        exact Nat.digits_ne_nil_iff_ne_zero.mpr h0)
      (fun d hd => Nat.digits_lt_base (by norm_num) (List.mem_reverse.mp hd))]
    rw [vBE_reverse_eq_ofDigits, Nat.ofDigits_digits]

/-- The first character of `natToStr` is an ASCII digit, hence not a sign. -/
theorem natToStr_head_digit (n : Nat) :
    ∃ d, d < 10 ∧ ∃ rest, natToStr n = digitChar d :: rest := by
  by_cases h0 : n = 0
  · exact ⟨0, by norm_num, [], by simp [h0, natToStr]⟩
  · unfold natToStr
    rw [if_neg h0, natDigits_eq n n le_rfl, ← List.map_reverse]
    have hne : (Nat.digits 10 n).reverse ≠ [] := by
      simp only [ne_eq, List.reverse_eq_nil_iff]
      exact Nat.digits_ne_nil_iff_ne_zero.mpr h0
    obtain ⟨d, rest, hcons⟩ := List.exists_cons_of_ne_nil hne
    refine ⟨d, ?_, rest.map digitChar, by simp [hcons]⟩
    have hdmem : d ∈ Nat.digits 10 n := by
      have hrev : d ∈ (Nat.digits 10 n).reverse := by simp [hcons]
      exact List.mem_reverse.mp hrev
    exact Nat.digits_lt_base (by norm_num) hdmem

theorem parseSigned_natToStr (signed : Bool) (n : Nat) :
    parseSigned signed (natToStr n) = some (false, n) := by
  obtain ⟨d, hd, rest, hcons⟩ := natToStr_head_digit n
  have hp := parseDigits_natToStr n
  rw [hcons] at hp ⊢
  simp [parseSigned, digitChar_ne_plus hd, digitChar_ne_minus hd, hp]

theorem parseI64_intToStr {i : Int} (hlo : JNum.i64Min ≤ i) (hhi : i ≤ JNum.i64Max) :
    parseI64 (intToStr i) = some i := by
  by_cases hneg : i < 0
  · have : intToStr i = Char.ofNat 45 :: natToStr i.natAbs := by
      simp [intToStr, hneg]
    rw [this]
    have hps : parseSigned true (Char.ofNat 45 :: natToStr i.natAbs)
        = some (true, i.natAbs) := by
      obtain ⟨d, hd, rest, hcons⟩ := natToStr_head_digit i.natAbs
      have hp := parseDigits_natToStr i.natAbs
      simp [parseSigned, hp, show ¬(Char.ofNat 45 = Char.ofNat 43) by decide]
    have habs : -(i.natAbs : Int) = i := by
      rw [Int.ofNat_natAbs_of_nonpos (le_of_lt hneg)]; ring
    simp only [parseI64, hps, habs]
    rw [if_pos hlo]
  · push_neg at hneg
    have : intToStr i = natToStr i.natAbs := by simp [intToStr, not_lt.mpr hneg]
    have habs : (i.natAbs : Int) = i := Int.natAbs_of_nonneg hneg
    rw [this]
    simp only [parseI64, parseSigned_natToStr, habs]
    rw [if_pos hhi]

/-! Section: `serde_json::Value` accessors used by the source -/

/-- Key strings of the Firestore typed-value wire format. -/
def kStringValue : Str := "stringValue".data
def kIntegerValue : Str := "integerValue".data
def kDoubleValue : Str := "doubleValue".data
def kBooleanValue : Str := "booleanValue".data
def kNullValue : Str := "nullValue".data
def kTimestampValue : Str := "timestampValue".data
def kReferenceValue : Str := "referenceValue".data
def kGeoPointValue : Str := "geoPointValue".data
def kBytesValue : Str := "bytesValue".data
def kMapValue : Str := "mapValue".data
def kArrayValue : Str := "arrayValue".data
def kFields : Str := "fields".data
def kValues : Str := "values".data

/-- Rust `serde_json::Map::get` on an association list (first match). -/
def getKey (kvs : List (Str × JVal)) (k : Str) : Option JVal :=
  (kvs.find? (fun kv => kv.1 = k)).map (·.2)

namespace JVal

/-- Rust `Value::get(key)`: `None` on non-objects. -/
def get : JVal → Str → Option JVal
  | .obj kvs, k => getKey kvs k
  | _, _ => none

/-- Rust `Value::as_str`. -/
def as_str : JVal → Option Str
  | .str s => some s
  | _ => none

/-- Rust `Value::as_bool`. -/
def as_bool : JVal → Option Bool
  | .bool b => some b
  | _ => none

/-- Rust `Value::as_f64`. -/
def as_f64 : JVal → Option Rat
  | .num n => n.as_f64
  | _ => none

/-- Rust `Value::as_i64`. -/
def as_i64 : JVal → Option Int
  | .num n => n.as_i64
  | _ => none

/-- Rust `Value::as_u64`: only the positive-integer representation converts. -/
def as_u64 : JVal → Option Nat
  | .num (.posInt n) => some n
  | _ => none

/-- Rust `Value::as_array`. -/
def as_array : JVal → Option (List JVal)
  | .arr xs => some xs
  | _ => none

/-- Rust `Value::as_object`. -/
def as_object : JVal → Option (List (Str × JVal))
  | .obj kvs => some kvs
  | _ => none

end JVal

theorem sizeOf_getKey {kvs : List (Str × JVal)} {k : Str} {x : JVal}
    (h : getKey kvs k = some x) : sizeOf x < sizeOf kvs := by
  unfold getKey at h
  cases hf : kvs.find? (fun kv => kv.1 = k) with
  | none => rw [hf] at h; simp at h
  | some p =>
      rw [hf] at h
      have hpx : p.2 = x := Option.some.inj h
      have hmem : p ∈ kvs := List.mem_of_find?_eq_some hf
      have hlt : sizeOf p < sizeOf kvs := List.sizeOf_lt_of_mem hmem
      subst hpx
      cases p with
      | mk a b => simp only [Prod.mk.sizeOf_spec] at hlt ⊢; omega

theorem sizeOf_get {v : JVal} {k : Str} {x : JVal}
    (h : v.get k = some x) : sizeOf x < sizeOf v := by
  cases v with
  | obj kvs =>
      have := @sizeOf_getKey kvs k x h
      simp only [JVal.obj.sizeOf_spec]
      omega
  | null => simp [JVal.get] at h
  | bool b => simp [JVal.get] at h
  | num n => simp [JVal.get] at h
  | str s => simp [JVal.get] at h
  | arr xs => simp [JVal.get] at h

theorem sizeOf_as_array {v : JVal} {xs : List JVal}
    (h : v.as_array = some xs) : sizeOf xs < sizeOf v := by
  cases v with
  | arr ys =>
      simp only [JVal.as_array, Option.some.injEq] at h
      subst h; simp
  | null => simp [JVal.as_array] at h
  | bool b => simp [JVal.as_array] at h
  | num n => simp [JVal.as_array] at h
  | str s => simp [JVal.as_array] at h
  | obj kvs => simp [JVal.as_array] at h

/-- A rendering of a serde_json number (the dead third branch of the
source's number encoding; `as_f64` is total, so it is unreachable — see
`to_firestore_value_num_branches`). -/
def jnumDisplay : JNum → Str
  | .posInt n => natToStr n
  | .negInt n => intToStr n
  | .float q => intToStr q.num

/-! Section: The Value Codec (src/firestore.rs lines 244-347) -/

/-- Rust `to_firestore_value` (src/firestore.rs:245): convert a
`serde_json::Value` into Firestore's typed value format. -/
def to_firestore_value : JVal → JVal
  | .null => .obj [(kNullValue, .null)]
  | .bool b => .obj [(kBooleanValue, .bool b)]
  | .num n =>
      match n.as_i64 with
      | some i => .obj [(kIntegerValue, .str (intToStr i))]
      | none =>
          match n.as_f64 with
          | some f => .obj [(kDoubleValue, .num (.float f))]
          | none => .obj [(kIntegerValue, .str (jnumDisplay n))]
  | .str s => .obj [(kStringValue, .str s)]
  | .arr xs =>
      .obj [(kArrayValue,
        .obj [(kValues, .arr (xs.attach.map (fun x => to_firestore_value x.1)))])]
  | .obj kvs =>
      .obj [(kMapValue,
        .obj [(kFields,
          .obj (kvs.attach.map (fun kv => (kv.1.1, to_firestore_value kv.1.2))))])]
termination_by v => sizeOf v
decreasing_by
  · have := List.sizeOf_lt_of_mem x.2
    simp only [JVal.arr.sizeOf_spec]
    omega
  · have h1 := List.sizeOf_lt_of_mem kv.2
    have h2 : sizeOf kv.1.2 < sizeOf kv.1 := by
      cases h : kv.1 with
      | mk a b => simp only [Prod.mk.sizeOf_spec]; omega
    simp only [JVal.obj.sizeOf_spec]
    omega

/-- Rust `parse_firestore_value` (src/firestore.rs:285): parse a Firestore typed
value into a `serde_json::Value`.  The chain of `val.get(...)` probes and
the recursion into `mapValue.fields` / `arrayValue.values` mirror the
source; `parse_firestore_fields` (src/firestore.rs:337) is inlined as the
`.obj`-mapping step exactly as the source defines it. -/
def parse_firestore_value (v : JVal) : JVal :=
  match h1 : v.get kStringValue with
  | some s => s
  | none =>
  match h2 : v.get kIntegerValue with
  | some i =>
      -- Firestore sends integers as strings
      (match i.as_str with
       | some s =>
           match parseI64 s with
           | some n => .num (i64ToJNum n)
           | none => i
       | none => i)
  | none =>
  match h3 : v.get kDoubleValue with
  | some d => d
  | none =>
  match h4 : v.get kBooleanValue with
  | some b => b
  | none =>
  match h5 : v.get kNullValue with
  | some _ => .null
  | none =>
  match h6 : v.get kTimestampValue with
  | some ts => ts
  | none =>
  match h7 : v.get kReferenceValue with
  | some r => r
  | none =>
  match h8 : v.get kGeoPointValue with
  | some geo => geo
  | none =>
  match h9 : v.get kBytesValue with
  | some bytes => bytes
  | none =>
  match h10 : v.get kMapValue with
  | some m =>
      (match h11 : m.get kFields with
       | some fields =>
           -- parse_firestore_fields
           (match h12 : fields with
            | .obj kvs =>
                .obj (kvs.attach.map (fun kv => (kv.1.1, parse_firestore_value kv.1.2)))
            | _ => .null)
       | none => .obj [])
  | none =>
  match h13 : v.get kArrayValue with
  | some a =>
      (match h14 : a.get kValues with
       | some vs =>
           (match h15 : vs.as_array with
            | some values => .arr (values.attach.map (fun x => parse_firestore_value x.1))
            | none => .arr [])
       | none => .arr [])
  | none =>
  -- Unknown format, return as-is
  v
termination_by sizeOf v
decreasing_by
  · have ha := sizeOf_get h10
    have hb := sizeOf_get h11
    have hmem := List.sizeOf_lt_of_mem kv.2
    have hc : sizeOf kv.1.2 < sizeOf kv.1 := by
      cases kv.1 with
      | mk a b => simp only [Prod.mk.sizeOf_spec]; omega
    have hd : sizeOf (JVal.obj kvs) = 1 + sizeOf kvs := by simp
    omega
  · have ha := sizeOf_get h13
    have hb := sizeOf_get h14
    have hc := sizeOf_as_array h15
    have hmem := List.sizeOf_lt_of_mem x.2
    omega

/-! Evaluation lemmas for `parse_firestore_value` on each encoded kind. -/

theorem parse_fv_stringValue (s : JVal) :
    parse_firestore_value (.obj [(kStringValue, s)]) = s := by
  rw [parse_firestore_value]; rfl

theorem parse_fv_integerValue_str (s : Str) :
    parse_firestore_value (.obj [(kIntegerValue, .str s)])
      = (match parseI64 s with
         | some n => .num (i64ToJNum n)
         | none => .str s) := by
  rw [parse_firestore_value]; rfl

theorem parse_fv_doubleValue (d : JVal) :
    parse_firestore_value (.obj [(kDoubleValue, d)]) = d := by
  rw [parse_firestore_value]; rfl

theorem parse_fv_booleanValue (b : JVal) :
    parse_firestore_value (.obj [(kBooleanValue, b)]) = b := by
  rw [parse_firestore_value]; rfl

theorem parse_fv_nullValue (x : JVal) :
    parse_firestore_value (.obj [(kNullValue, x)]) = .null := by
  rw [parse_firestore_value]; rfl

theorem parse_fv_mapValue (kvs : List (Str × JVal)) :
    parse_firestore_value (.obj [(kMapValue, .obj [(kFields, .obj kvs)])])
      = .obj (kvs.attach.map (fun kv => (kv.1.1, parse_firestore_value kv.1.2))) := by
  rw [parse_firestore_value]; rfl

theorem parse_fv_arrayValue (xs : List JVal) :
    parse_firestore_value (.obj [(kArrayValue, .obj [(kValues, .arr xs)])])
      = .arr (xs.attach.map (fun x => parse_firestore_value x.1)) := by
  rw [parse_firestore_value]; rfl

/-- serde_json's representation invariants for a number, together with the
restriction to `i64`-representable integers.  The first two cases'
range/sign bounds are invariants of every real `serde_json::Number`
(`PosInt` holds a `u64`, `NegInt` a negative `i64`); the genuine
restriction added here is `posInt n ≤ i64::MAX`, which the round-trip
counterexample below shows is necessary. -/
def numOk : JNum → Prop
  | .posInt n => (n : Int) ≤ JNum.i64Max
  | .negInt n => JNum.i64Min ≤ n ∧ n < 0
  | .float _ => True

/-- A native JSON value all of whose numbers satisfy `numOk`. -/
inductive GoodVal : JVal → Prop
  | null : GoodVal .null
  | bool (b : Bool) : GoodVal (.bool b)
  | num (n : JNum) : numOk n → GoodVal (.num n)
  | str (s : Str) : GoodVal (.str s)
  | arr (xs : List JVal) : (∀ x ∈ xs, GoodVal x) → GoodVal (.arr xs)
  | obj (kvs : List (Str × JVal)) : (∀ kv ∈ kvs, GoodVal kv.2) → GoodVal (.obj kvs)

/-- Payload-generic evaluation of the integer-kind branch: mirrors
src/firestore.rs:289-297 (string payloads are parsed back to `i64`,
anything else — unparsable strings included — is returned unchanged). -/
theorem parse_fv_integerValue (i : JVal) :
    parse_firestore_value (.obj [(kIntegerValue, i)])
      = (match i.as_str with
         | some s =>
             (match parseI64 s with
              | some n => .num (i64ToJNum n)
              | none => i)
         | none => i) := by
  rw [parse_firestore_value]; rfl

/-- C1 (amended): for every representable native value whose integers all
lie in `i64` range, decoding the encoding returns the original value,
recursively through arrays and objects. -/
theorem c1_roundtrip_amended {v : JVal} (hg : GoodVal v) :
    parse_firestore_value (to_firestore_value v) = v := by
  induction hg with
  | null => rw [to_firestore_value]; exact parse_fv_nullValue _
  | bool b => rw [to_firestore_value]; exact parse_fv_booleanValue _
  | str s => rw [to_firestore_value]; exact parse_fv_stringValue _
  | num n hok =>
      rw [to_firestore_value]
      cases n with
      | posInt m =>
          have hok' : (m : Int) ≤ JNum.i64Max := hok
          have hm : (JNum.posInt m).as_i64 = some (m : Int) := by
            simp [JNum.as_i64, hok']
          rw [hm, parse_fv_integerValue_str]
          have hlo : JNum.i64Min ≤ (m : Int) :=
            le_trans (by norm_num [JNum.i64Min]) (Int.natCast_nonneg m)
          rw [parseI64_intToStr hlo hok']
          simp [i64ToJNum]
      | negInt m =>
          have hok' : JNum.i64Min ≤ m ∧ m < 0 := hok
          have hm : (JNum.negInt m).as_i64 = some m := rfl
          rw [hm, parse_fv_integerValue_str,
            parseI64_intToStr hok'.1
              (le_trans (le_of_lt hok'.2) (by norm_num [JNum.i64Max]))]
          simp [i64ToJNum, Int.not_le.mpr hok'.2]
      | float q =>
          have hm : (JNum.float q).as_i64 = none := rfl
          rw [hm]
          exact parse_fv_doubleValue _
  | arr xs hmem ih =>
      rw [to_firestore_value, parse_fv_arrayValue]
      congr 1
      rw [List.attach_map_val _ parse_firestore_value, List.map_map]
      have hcg : ∀ y ∈ xs.attach,
          (parse_firestore_value ∘ fun x => to_firestore_value x.1) y = y.1 :=
        fun y _ => ih y.1 y.2
      rw [List.map_congr_left hcg, List.attach_map_subtype_val]
  | obj kvs hmem ih =>
      rw [to_firestore_value, parse_fv_mapValue]
      congr 1
      rw [List.attach_map_val _
          (fun (p : Str × JVal) => (p.1, parse_firestore_value p.2)),
        List.map_map]
      have hcg : ∀ y ∈ kvs.attach,
          ((fun (p : Str × JVal) => (p.1, parse_firestore_value p.2)) ∘
            fun kv => (kv.1.1, to_firestore_value kv.1.2)) y = y.1 := by
        intro y _
        simp only [Function.comp_apply]
        rw [ih y.1 y.2]
      rw [List.map_congr_left hcg, List.attach_map_subtype_val]

/-- Witness for `c1_roundtrip_amended`: a concrete nested value
(an object holding an array with a negative integer and a string)
round-trips. -/
theorem c1_roundtrip_witness :
    parse_firestore_value (to_firestore_value
      (.obj [(['a'], .arr [.num (.negInt (-5)), .str ['h', 'i']])]))
      = .obj [(['a'], .arr [.num (.negInt (-5)), .str ['h', 'i']])] :=
  c1_roundtrip_amended (by
    refine GoodVal.obj _ ?_
    intro kv hkv
    simp only [List.mem_singleton] at hkv
    subst hkv
    refine GoodVal.arr _ ?_
    intro x hx
    simp only [List.mem_cons, List.mem_singleton, List.not_mem_nil, or_false] at hx
    rcases hx with h | h <;> subst h
    · exact GoodVal.num _ (by norm_num [numOk, JNum.i64Min])
    · exact GoodVal.str _)

/-- C1 counterexample: the claim as stated fails for the representable
native value `2^63` (a `u64`-represented integer above `i64::MAX`, with no
collapsed kinds anywhere in it).  `as_i64` fails on it, so the encoder
routes it through `as_f64` to the double kind, and decoding returns a
float-represented number, which serde_json's equality distinguishes from
the original integer-represented number. -/
theorem c1_roundtrip_counterexample :
    parse_firestore_value (to_firestore_value (.num (.posInt (2 ^ 63))))
      = .num (.float ((2 ^ 63 : Nat) : Rat))
    ∧ JVal.num (.float ((2 ^ 63 : Nat) : Rat)) ≠ .num (.posInt (2 ^ 63)) := by
  constructor
  · rw [to_firestore_value]
    have h1 : (JNum.posInt (2 ^ 63)).as_i64 = none := by
      simp only [JNum.as_i64, JNum.i64Max]
      norm_num
    rw [h1]
    exact parse_fv_doubleValue _
  · intro h
    injection h with h2
    exact JNum.noConfusion h2

/-- C7 (amended): a number whose serde representation converts via
`as_i64` (an integer-represented value within `i64` range) encodes as the
integer kind carrying its decimal-string payload; every other number — all
floats, and integer-represented values above `i64::MAX` — encodes as the
double kind carrying a native numeric payload. -/
theorem c7_number_encoding_amended (n : JNum) :
    (∀ i, n.as_i64 = some i →
        to_firestore_value (.num n) = .obj [(kIntegerValue, .str (intToStr i))])
    ∧ (∀ f, n.as_i64 = none → n.as_f64 = some f →
        to_firestore_value (.num n) = .obj [(kDoubleValue, .num (.float f))]) := by
  constructor
  · intro i h
    rw [to_firestore_value, h]
  · intro f h hf
    rw [to_firestore_value, h, hf]

/-- Witness for `c7_number_encoding_amended`: the integral value `7`
encodes as `integerValue "7"` and the fractional value `1/2` encodes as
`doubleValue 0.5`. -/
theorem c7_number_encoding_witness :
    to_firestore_value (.num (.posInt 7))
      = .obj [(kIntegerValue, .str (intToStr 7))]
    ∧ to_firestore_value (.num (.float (1 / 2)))
      = .obj [(kDoubleValue, .num (.float (1 / 2)))] :=
  ⟨(c7_number_encoding_amended (.posInt 7)).1 7 (by decide),
   (c7_number_encoding_amended (.float (1 / 2))).2 (1 / 2) rfl rfl⟩

/-- C7 counterexample: `2^63` is an integral numeric value representable
in the native value type (`u64`), yet it encodes as the double kind, not
the integer kind: the claim as stated fails above `i64::MAX`. -/
theorem c7_number_encoding_counterexample :
    to_firestore_value (.num (.posInt (2 ^ 63)))
      = .obj [(kDoubleValue, .num (.float ((2 ^ 63 : Nat) : Rat)))]
    ∧ (JVal.obj [(kDoubleValue, .num (.float ((2 ^ 63 : Nat) : Rat)))]).get
        kIntegerValue = none := by
  constructor
  · rw [to_firestore_value]
    have h1 : (JNum.posInt (2 ^ 63)).as_i64 = none := by
      simp only [JNum.as_i64, JNum.i64Max]
      norm_num
    rw [h1]
    rfl
  · rfl

/-- C9: the decoder is a total function (`parse_firestore_value` is a Lean
`def` into `JVal`, never an error); on the integer kind it parses a
parseable `i64` decimal-string payload back to a native integer, returns
an unparsable string payload unchanged, and returns a non-string payload
unchanged. -/
theorem c9_parse_integer_total (s : Str) (i : JVal) :
    (∀ n, parseI64 s = some n →
        parse_firestore_value (.obj [(kIntegerValue, .str s)]) = .num (i64ToJNum n))
    ∧ (parseI64 s = none →
        parse_firestore_value (.obj [(kIntegerValue, .str s)]) = .str s)
    ∧ (i.as_str = none → parse_firestore_value (.obj [(kIntegerValue, i)]) = i) := by
  refine ⟨?_, ?_, ?_⟩
  · intro n h
    rw [parse_fv_integerValue]
    simp only [JVal.as_str, h]
  · intro h
    rw [parse_fv_integerValue]
    simp only [JVal.as_str, h]
  · intro h
    rw [parse_fv_integerValue, h]

/-- Witness for `c9_parse_integer_total`: `integerValue "12"` decodes to
the native integer `12`; `integerValue "abc"` decodes to the raw string
payload `"abc"`; a non-string payload `true` is returned unchanged. -/
theorem c9_parse_integer_total_witness :
    parse_firestore_value (.obj [(kIntegerValue, .str ['1', '2'])])
      = .num (i64ToJNum 12)
    ∧ parse_firestore_value (.obj [(kIntegerValue, .str ['a', 'b', 'c'])])
      = .str ['a', 'b', 'c']
    ∧ parse_firestore_value (.obj [(kIntegerValue, .bool true)]) = .bool true := by
  exact ⟨(c9_parse_integer_total ['1', '2'] .null).1 12 (by decide),
    (c9_parse_integer_total ['a', 'b', 'c'] .null).2.1 (by decide),
    (c9_parse_integer_total [] (.bool true)).2.2 rfl⟩

/-! Section: Calendar dates (chrono `NaiveDate`, proleptic Gregorian) -/

/-- A calendar date; ordering is lexicographic on (year, month, day),
matching chrono's `Ord` for `NaiveDate`. -/
structure Date where
  y : Int
  m : Nat
  d : Nat
deriving DecidableEq, Repr

/-- Proleptic-Gregorian leap year, as chrono computes it. -/
def isLeapYear (y : Int) : Bool := y % 4 = 0 ∧ (y % 100 ≠ 0 ∨ y % 400 = 0)

/-- Days in a month of a given year. -/
def daysInMonth (y : Int) (m : Nat) : Nat :=
  if m = 2 then (if isLeapYear y then 29 else 28)
  else if m = 4 ∨ m = 6 ∨ m = 9 ∨ m = 11 then 30
  else 31

/-- chrono `NaiveDate::from_ymd_opt`: `Some` exactly for real calendar
dates (chrono's additional ±262143 year bound is never exercised by any
input in this file and is not modelled). -/
def fromYmdOpt (y : Int) (m d : Nat) : Option Date :=
  if 1 ≤ m ∧ m ≤ 12 ∧ 1 ≤ d ∧ d ≤ daysInMonth y m then some ⟨y, m, d⟩ else none

/-- chrono's `NaiveDate` ordering as a boolean (used as the sort
comparator). -/
def dateLe (a b : Date) : Bool :=
  if a.y ≠ b.y then a.y < b.y
  else if a.m ≠ b.m then a.m < b.m
  else a.d ≤ b.d

theorem dateLe_iff (a b : Date) :
    dateLe a b = true ↔
      (a.y < b.y ∨ (a.y = b.y ∧ (a.m < b.m ∨ (a.m = b.m ∧ a.d ≤ b.d)))) := by
  unfold dateLe
  by_cases h1 : a.y = b.y <;> by_cases h2 : a.m = b.m <;> simp [h1, h2] <;> omega

theorem dateLe_trans : ∀ a b c : Date,
    dateLe a b = true → dateLe b c = true → dateLe a c = true := by
  intro a b c hab hbc
  rw [dateLe_iff] at *
  omega

theorem dateLe_total : ∀ a b : Date, dateLe a b = true ∨ dateLe b a = true := by
  intro a b
  rw [dateLe_iff, dateLe_iff]
  omega

/-! Section: Domain records (src/models.rs).  `f64` fields are modelled as
rationals; every property proved about them is about which formula or
fallback applies, plus concrete instances that are exact in `f64`. -/

/-- Rust `ScaleEntry` (src/models.rs:8). -/
structure ScaleEntry where
  date : Date
  weight : Rat
  body_fat : Option Rat
  source : Option Str
deriving DecidableEq

/-- Rust `NutritionSummary` (src/models.rs:20). -/
structure NutritionSummary where
  date : Date
  calories : Option Rat
  protein : Option Rat
  carbs : Option Rat
  fat : Option Rat
  sugar : Option Rat
  fiber : Option Rat
  source : Option Str
deriving DecidableEq

/-- Rust `StepEntry` (src/models.rs:176). -/
structure StepEntry where
  date : Date
  steps : Nat
  source : Option Str
deriving DecidableEq

/-- Rust `FoodEntry` (src/models.rs:86). -/
structure FoodEntry where
  date : Date
  entry_id : Str
  name : Option Str
  brand : Option Str
  calories_raw : Option Rat
  protein_raw : Option Rat
  carbs_raw : Option Rat
  fat_raw : Option Rat
  serving_grams : Option Rat
  user_qty : Option Rat
  unit_weight : Option Rat
  quantity : Option Rat
  serving_unit : Option Str
  hour : Option Str
  minute : Option Str
  source_type : Option Str
  food_id : Option Str
  deleted : Option Bool
deriving DecidableEq

namespace FoodEntry

/-- Rust `FoodEntry::multiplier` (src/models.rs:126). -/
def multiplier (e : FoodEntry) : Option Rat :=
  match e.serving_grams, e.user_qty, e.unit_weight with
  | some g, some y, some w => if g > 0 then some ((y * w) / g) else none
  | _, _, _ => none

/-- Rust `FoodEntry::calories` (src/models.rs:134). -/
def calories (e : FoodEntry) : Option Rat :=
  match e.calories_raw, e.multiplier with
  | some v, some m => some (v * m)
  | _, _ => e.calories_raw

/-- Rust `FoodEntry::protein` (src/models.rs:142). -/
def protein (e : FoodEntry) : Option Rat :=
  match e.protein_raw, e.multiplier with
  | some v, some m => some (v * m)
  | _, _ => e.protein_raw

/-- Rust `FoodEntry::carbs` (src/models.rs:150). -/
def carbs (e : FoodEntry) : Option Rat :=
  match e.carbs_raw, e.multiplier with
  | some v, some m => some (v * m)
  | _, _ => e.carbs_raw

/-- Rust `FoodEntry::fat` (src/models.rs:158). -/
def fat (e : FoodEntry) : Option Rat :=
  match e.fat_raw, e.multiplier with
  | some v, some m => some (v * m)
  | _, _ => e.fat_raw

/-- Rust `FoodEntry::weight_grams` (src/models.rs:166). -/
def weight_grams (e : FoodEntry) : Option Rat :=
  match e.user_qty, e.unit_weight with
  | some y, some w => some (y * w)
  | _, _ => none

end FoodEntry

/-- C2: when all three scaling fields are present and `serving_grams > 0`,
the multiplier equals `(user_qty * unit_weight) / serving_grams`; when
`serving_grams` is absent or `≤ 0`, the multiplier is undefined and each
accessor returns the raw per-serving value unchanged. -/
theorem c2_multiplier_law (e : FoodEntry) :
    (∀ g y w, e.serving_grams = some g → e.user_qty = some y →
        e.unit_weight = some w → 0 < g →
        e.multiplier = some ((y * w) / g))
    ∧ ((e.serving_grams = none ∨ ∃ g, e.serving_grams = some g ∧ g ≤ 0) →
        e.multiplier = none
        ∧ e.calories = e.calories_raw ∧ e.protein = e.protein_raw
        ∧ e.carbs = e.carbs_raw ∧ e.fat = e.fat_raw) := by
  constructor
  · intro g y w hg hy hw hpos
    simp [FoodEntry.multiplier, hg, hy, hw, hpos]
  · intro h
    have hmul : e.multiplier = none := by
      rcases h with h | ⟨g, hg, hle⟩
      · simp [FoodEntry.multiplier, h]
      · simp only [FoodEntry.multiplier, hg]
        cases e.user_qty <;> cases e.unit_weight <;> simp [not_lt.mpr hle]
    refine ⟨hmul, ?_, ?_, ?_, ?_⟩ <;>
      simp only [FoodEntry.calories, FoodEntry.protein, FoodEntry.carbs,
        FoodEntry.fat, hmul] <;>
      first
        | (cases e.calories_raw <;> rfl)
        | (cases e.protein_raw <;> rfl)
        | (cases e.carbs_raw <;> rfl)
        | (cases e.fat_raw <;> rfl)

/-- A concrete food entry with `serving_grams = 100, user_qty = 1,
unit_weight = 100` (the spec's first multiplier-law instance). -/
def c2entryA : FoodEntry where
  date := ⟨2024, 3, 15⟩
  entry_id := []
  name := none
  brand := none
  calories_raw := some 165
  protein_raw := none
  carbs_raw := none
  fat_raw := none
  serving_grams := some 100
  user_qty := some 1
  unit_weight := some 100
  quantity := none
  serving_unit := none
  hour := none
  minute := none
  source_type := none
  food_id := none
  deleted := none

/-- Rust `c2entryA` with `serving_grams = 0` (the spec's second multiplier-law
instance). -/
def c2entryB : FoodEntry :=
  { c2entryA with serving_grams := some 0 }

/-- Witness for `c2_multiplier_law`: the spec's two concrete instances.
With `serving_grams = 100, user_qty = 1, unit_weight = 100` the multiplier
is `1`; with `serving_grams = 0` it is undefined and the raw calories
value `165` passes through unchanged. -/
theorem c2_multiplier_law_witness :
    (c2entryA.multiplier = some ((1 * 100) / 100) ∧ (1 * 100 : Rat) / 100 = 1)
    ∧ c2entryB.multiplier = none
    ∧ c2entryB.calories = some 165 := by
  refine ⟨⟨(c2_multiplier_law c2entryA).1 100 1 100 rfl rfl rfl (by norm_num),
    by norm_num⟩, ?_, ?_⟩
  · exact ((c2_multiplier_law c2entryB).2 (Or.inr ⟨0, rfl, le_rfl⟩)).1
  · have h := ((c2_multiplier_law c2entryB).2 (Or.inr ⟨0, rfl, le_rfl⟩)).2.1
    rw [h]
    rfl

/-! Section: Rust byte-oriented string operations

`&s[a..b]` on a Rust `str` is byte-indexed and panics when an index is not
a character boundary; `none` here models that panic. -/

/-- Rust `&s[..n]`: the characters covering the first `n` bytes, or `none`
(panic) if `n` overruns the string or falls inside a character. -/
def takeBytes : Str → Nat → Option Str
  | _, 0 => some []
  | [], _ + 1 => none
  | c :: cs, n + 1 =>
      if c.utf8Size ≤ n + 1 then (takeBytes cs (n + 1 - c.utf8Size)).map (c :: ·)
      else none

/-- Rust `&s[n..]`: the characters after the first `n` bytes, or `none` (panic)
if `n` overruns the string or falls inside a character. -/
def dropBytes : Str → Nat → Option Str
  | s, 0 => some s
  | [], _ + 1 => none
  | c :: cs, n + 1 =>
      if c.utf8Size ≤ n + 1 then dropBytes cs (n + 1 - c.utf8Size) else none

/-- Rust `str::starts_with('_')`. -/
def startsWithUnderscore (s : Str) : Bool :=
  match s with
  | c :: _ => c = '_'
  | [] => false

/-- Rust `str::contains(pat)` for a string pattern, used by the source's
`e.to_string().contains("404")` check: some tail of `s` starts with
`pat`. -/
def containsSubstr (s pat : Str) : Bool :=
  s.tails.any (fun t => pat.isPrefixOf t)

/-! Section: Documents and the field-map parse (src/firestore.rs:16, 336) -/

/-- Rust `Document` (src/firestore.rs:17). -/
structure FireDoc where
  name : Str
  fields : Option (List (Str × JVal))
  create_time : Option Str
  update_time : Option Str

/-- Rust `parse_firestore_fields` (src/firestore.rs:337), as a standalone
function (the recursion inside `parse_firestore_value` inlines the same
body). -/
def parse_firestore_fields (fields : JVal) : JVal :=
  match fields with
  | .obj kvs => .obj (kvs.map (fun kv => (kv.1, parse_firestore_value kv.2)))
  | _ => .null

/-! Section: The range scans (src/client.rs) -/

/-- The `parse_num` closure used throughout src/client.rs: a native
number, or a numeric string parsed as `f64`. -/
def numOrStr (v : JVal) : Option Rat :=
  match v.as_f64 with
  | some x => some x
  | none => v.as_str.bind parseF64

/-- Rust `obj.get(k)` then `parse_num`. -/
def getNum (obj : List (Str × JVal)) (k : Str) : Option Rat :=
  (getKey obj k).bind numOrStr

/-- Rust `obj.get(k).and_then(|v| v.as_str()).map(String::from)`. -/
def getStr (obj : List (Str × JVal)) (k : Str) : Option Str :=
  (getKey obj k).bind JVal.as_str

/-- One iteration of the key loop in `get_weight_entries`
(src/client.rs:111-136).  Outer `none` models a byte-slicing panic, inner
`none` a key that contributes no record. -/
def processScaleKey (year : Int) (start stop : Date) (key : Str) (val : JVal) :
    Option (Option ScaleEntry) :=
  if startsWithUnderscore key ∨ utf8Len key ≠ 4 then some none
  else
    match takeBytes key 2, dropBytes key 2 with
    | some mm, some dd =>
        (match fromYmdOpt year ((parseU32 mm).getD 0) ((parseU32 dd).getD 0) with
         | some date =>
             if dateLe start date ∧ dateLe date stop then
               match val.as_object with
               | some obj =>
                   some (some
                     { date := date
                       weight := ((getKey obj ['w']).bind JVal.as_f64).getD 0
                       body_fat := (getKey obj ['f']).bind JVal.as_f64
                       source := getStr obj ['s'] })
               | none => some none
             else some none
         | none => some none)
    | _, _ => none

/-- The key loop of `get_weight_entries` over a parsed year document. -/
def scanScaleFields (year : Int) (start stop : Date) :
    List (Str × JVal) → Option (List ScaleEntry)
  | [] => some []
  | (key, val) :: rest => do
      let r ← processScaleKey year start stop key val
      let rs ← scanScaleFields year start stop rest
      match r with
      | some e => pure (e :: rs)
      | none => pure rs

/-- The inclusive year range `start_year..=end_year`. -/
def yearList (startY endY : Int) : List Int :=
  (List.range (endY - startY + 1).toNat).map (fun i => startY + (i : Int))

/-- The year loop of `get_weight_entries` (src/client.rs:101-139): a
failed fetch of a year bucket — any error — skips that year. -/
def collectScale (fetch : Int → Except Str FireDoc) (start stop : Date) :
    List Int → Option (List ScaleEntry)
  | [] => some []
  | year :: rest =>
      match fetch year with
      | .error _ => collectScale fetch start stop rest
      | .ok doc =>
          match doc.fields with
          | none => collectScale fetch start stop rest
          | some fields =>
              match (parse_firestore_fields (.obj fields)).as_object with
              | some map => do
                  let es ← scanScaleFields year start stop map
                  let later ← collectScale fetch start stop rest
                  pure (es ++ later)
              | none => collectScale fetch start stop rest

/-- Rust `get_weight_entries` (src/client.rs:89-143), with the per-year
document fetch abstracted as `fetch`.  The final
`entries.sort_by_key(|e| e.date)` is Rust's stable sort, modelled by
`List.mergeSort`. -/
def get_weight_entries (fetch : Int → Except Str FireDoc) (start stop : Date) :
    Option (Except Str (List ScaleEntry)) :=
  (collectScale fetch start stop (yearList start.y stop.y)).map
    (fun entries =>
      (Except.ok (entries.mergeSort (fun a b => dateLe a.date b.date)) :
        Except Str (List ScaleEntry)))

/-- One iteration of the key loop in `get_nutrition`
(src/client.rs:168-200). -/
def processNutritionKey (year : Int) (start stop : Date) (key : Str) (val : JVal) :
    Option (Option NutritionSummary) :=
  if startsWithUnderscore key ∨ utf8Len key ≠ 4 then some none
  else
    match takeBytes key 2, dropBytes key 2 with
    | some mm, some dd =>
        (match fromYmdOpt year ((parseU32 mm).getD 0) ((parseU32 dd).getD 0) with
         | some date =>
             if dateLe start date ∧ dateLe date stop then
               match val.as_object with
               | some obj =>
                   some (some
                     { date := date
                       calories := getNum obj ['k']
                       protein := getNum obj ['p']
                       carbs := getNum obj ['c']
                       fat := getNum obj ['f']
                       sugar := getNum obj ['2', '6', '9']
                       fiber := getNum obj ['2', '9', '1']
                       source := getStr obj ['s'] })
               | none => some none
             else some none
         | none => some none)
    | _, _ => none

/-- The key loop of `get_nutrition` over a parsed year document. -/
def scanNutritionFields (year : Int) (start stop : Date) :
    List (Str × JVal) → Option (List NutritionSummary)
  | [] => some []
  | (key, val) :: rest => do
      let r ← processNutritionKey year start stop key val
      let rs ← scanNutritionFields year start stop rest
      match r with
      | some e => pure (e :: rs)
      | none => pure rs

/-- The year loop of `get_nutrition` (src/client.rs:158-203). -/
def collectNutrition (fetch : Int → Except Str FireDoc) (start stop : Date) :
    List Int → Option (List NutritionSummary)
  | [] => some []
  | year :: rest =>
      match fetch year with
      | .error _ => collectNutrition fetch start stop rest
      | .ok doc =>
          match doc.fields with
          | none => collectNutrition fetch start stop rest
          | some fields =>
              match (parse_firestore_fields (.obj fields)).as_object with
              | some map => do
                  let es ← scanNutritionFields year start stop map
                  let later ← collectNutrition fetch start stop rest
                  pure (es ++ later)
              | none => collectNutrition fetch start stop rest

/-- Rust `get_nutrition` (src/client.rs:147-207). -/
def get_nutrition (fetch : Int → Except Str FireDoc) (start stop : Date) :
    Option (Except Str (List NutritionSummary)) :=
  (collectNutrition fetch start stop (yearList start.y stop.y)).map
    (fun entries =>
      (Except.ok (entries.mergeSort (fun a b => dateLe a.date b.date)) :
        Except Str (List NutritionSummary)))

/-- One iteration of the key loop in `get_steps` (src/client.rs:314-341). -/
def processStepsKey (year : Int) (start stop : Date) (key : Str) (val : JVal) :
    Option (Option StepEntry) :=
  if startsWithUnderscore key ∨ utf8Len key ≠ 4 then some none
  else
    match takeBytes key 2, dropBytes key 2 with
    | some mm, some dd =>
        (match fromYmdOpt year ((parseU32 mm).getD 0) ((parseU32 dd).getD 0) with
         | some date =>
             if dateLe start date ∧ dateLe date stop then
               match val.as_object with
               | some obj =>
                   some (some
                     { date := date
                       steps := ((getKey obj ['s', 't']).bind (fun v =>
                         match v.as_u64 with
                         | some x => some x
                         | none => v.as_str.bind parseU64)).getD 0
                       source := getStr obj ['s'] })
               | none => some none
             else some none
         | none => some none)
    | _, _ => none

/-- The key loop of `get_steps` over a parsed year document. -/
def scanStepsFields (year : Int) (start stop : Date) :
    List (Str × JVal) → Option (List StepEntry)
  | [] => some []
  | (key, val) :: rest => do
      let r ← processStepsKey year start stop key val
      let rs ← scanStepsFields year start stop rest
      match r with
      | some e => pure (e :: rs)
      | none => pure rs

/-- The year loop of `get_steps` (src/client.rs:304-344). -/
def collectSteps (fetch : Int → Except Str FireDoc) (start stop : Date) :
    List Int → Option (List StepEntry)
  | [] => some []
  | year :: rest =>
      match fetch year with
      | .error _ => collectSteps fetch start stop rest
      | .ok doc =>
          match doc.fields with
          | none => collectSteps fetch start stop rest
          | some fields =>
              match (parse_firestore_fields (.obj fields)).as_object with
              | some map => do
                  let es ← scanStepsFields year start stop map
                  let later ← collectSteps fetch start stop rest
                  pure (es ++ later)
              | none => collectSteps fetch start stop rest

/-- Rust `get_steps` (src/client.rs:297-348). -/
def get_steps (fetch : Int → Except Str FireDoc) (start stop : Date) :
    Option (Except Str (List StepEntry)) :=
  (collectSteps fetch start stop (yearList start.y stop.y)).map
    (fun entries =>
      (Except.ok (entries.mergeSort (fun a b => dateLe a.date b.date)) :
        Except Str (List StepEntry)))

/-! Section: `get_food_log` (src/client.rs:211-293) -/

/-- Build one `FoodEntry` from a parsed entry object
(src/client.rs:246-265). -/
def mkFoodEntry (date : Date) (key : Str) (obj : List (Str × JVal)) : FoodEntry where
  date := date
  entry_id := key
  name := getStr obj ['t']
  brand := getStr obj ['b']
  calories_raw := getNum obj ['c']
  protein_raw := getNum obj ['p']
  carbs_raw := getNum obj ['e']
  fat_raw := getNum obj ['f']
  serving_grams := getNum obj ['g']
  user_qty := getNum obj ['y']
  unit_weight := getNum obj ['w']
  quantity := getNum obj ['q']
  serving_unit := getStr obj ['s']
  hour := getStr obj ['h']
  minute := getStr obj ['m', 'i']
  source_type := getStr obj ['k']
  food_id := getStr obj ['i', 'd']
  deleted := (getKey obj ['d']).bind JVal.as_bool

/-- The key loop of `get_food_log` (src/client.rs:226-268): underscore
keys and non-object values are skipped, everything else becomes an
entry. -/
def buildFoodEntries (date : Date) : List (Str × JVal) → List FoodEntry
  | [] => []
  | (key, val) :: rest =>
      if startsWithUnderscore key then buildFoodEntries date rest
      else
        match val.as_object with
        | some obj => mkFoodEntry date key obj :: buildFoodEntries date rest
        | none => buildFoodEntries date rest

/-- The `(hour, minute)` sort key of `get_food_log`'s final sort
(src/client.rs:272-290): each component parsed as an integer from its
string field, defaulting to 0 when missing or unparsable. -/
def foodTimeKey (e : FoodEntry) : Nat × Nat :=
  ((parseU32 (e.hour.getD ['0'])).getD 0,
   (parseU32 (e.minute.getD ['0'])).getD 0)

/-- Lexicographic `≤` on `(hour, minute)` pairs (Rust's derived
`Ord::cmp` on tuples). -/
def timePairLe (a b : Nat × Nat) : Bool :=
  a.1 < b.1 ∨ (a.1 = b.1 ∧ a.2 ≤ b.2)

/-- The `"404"` pattern of `get_food_log`'s error check. -/
def notFoundPat : Str := ['4', '0', '4']

/-- Rust `get_food_log` (src/client.rs:211-293), with the day-document fetch
result passed in: an error whose text contains `"404"` yields an empty
list, any other error propagates; entries are sorted by `(hour, minute)`
with Rust's stable `sort_by`. -/
def get_food_log (fetchResult : Except Str FireDoc) (date : Date) :
    Except Str (List FoodEntry) :=
  match fetchResult with
  | .error e => if containsSubstr e notFoundPat then .ok [] else .error e
  | .ok doc =>
      let entries :=
        match doc.fields with
        | none => []
        | some fields =>
            match (parse_firestore_fields (.obj fields)).as_object with
            | some map => buildFoodEntries date map
            | none => []
      .ok (entries.mergeSort (fun a b => timePairLe (foodTimeKey a) (foodTimeKey b)))

/-! Section: `sync_day` (src/client.rs:714-805) -/

/-- Rust `compute_multiplier` (src/client.rs:808-819): the same zero-guarded
ratio as `FoodEntry::multiplier`, but falling back to `1.0` instead of
`None`. -/
def compute_multiplier (obj : List (Str × JVal)) : Rat :=
  match getNum obj ['g'], getNum obj ['y'], getNum obj ['w'] with
  | some g, some y, some w => if g > 0 then (y * w) / g else 1
  | _, _, _ => 1

/-- The macro-total loop of `sync_day` (src/client.rs:724-732): entries
with `deleted == Some(true)` are skipped; each total adds the accessor
value with `unwrap_or(0.0)`. -/
def syncMacroTotals (entries : List FoodEntry) : Rat × Rat × Rat × Rat :=
  entries.foldl
    (fun acc e =>
      if e.deleted = some true then acc
      else (acc.1 + (e.calories.getD 0), acc.2.1 + (e.protein.getD 0),
        acc.2.2.1 + (e.carbs.getD 0), acc.2.2.2 + (e.fat.getD 0)))
    (0, 0, 0, 0)

/-- Rust `*micros.entry(field).or_default() += scaled` on the accumulator map
(a `HashMap`; only point lookups are ever taken from it). -/
def bump (m : List (Str × Rat)) (k : Str) (v : Rat) : List (Str × Rat) :=
  match m with
  | [] => [(k, v)]
  | (k', v') :: rest =>
      if k' = k then (k', v' + v) :: rest else (k', v') :: bump rest k v

/-- Rust `micros.get(code)`. -/
def microLookup (m : List (Str × Rat)) (k : Str) : Option Rat :=
  (m.find? (fun kv => kv.1 = k)).map (·.2)

/-- The inner field loop of `sync_day`'s micronutrient walk
(src/client.rs:749-764): digit-only field keys outside the core macro set
accumulate `value * multiplier`. -/
def accumEntryMicros (micros : List (Str × Rat)) (mult : Rat) :
    List (Str × JVal) → List (Str × Rat)
  | [] => micros
  | (field, fval) :: rest =>
      if ¬ (field.all Char.isDigit) then accumEntryMicros micros mult rest
      else if field = ['2', '0', '8'] ∨ field = ['2', '0', '3']
          ∨ field = ['2', '0', '4'] ∨ field = ['2', '0', '5'] then
        accumEntryMicros micros mult rest
      else
        match numOrStr fval with
        | some v => accumEntryMicros (bump micros field (v * mult)) mult rest
        | none => accumEntryMicros micros mult rest

/-- Rust `d == Some(true)` on a raw entry value: the deleted-entry test of
`sync_day`'s micronutrient walk (src/client.rs:745-747). -/
def rawEntryDeleted (v : JVal) : Bool :=
  match v.as_object with
  | some obj => (getKey obj ['d']).bind JVal.as_bool = some true
  | none => false

/-- The outer entry loop of `sync_day`'s micronutrient walk
(src/client.rs:739-767): metadata keys, non-objects and deleted entries
are skipped; each remaining entry contributes through its own
multiplier. -/
def syncMicroTotals (micros : List (Str × Rat)) :
    List (Str × JVal) → List (Str × Rat)
  | [] => micros
  | (key, val) :: rest =>
      if startsWithUnderscore key then syncMicroTotals micros rest
      else
        match val.as_object with
        | some obj =>
            if (getKey obj ['d']).bind JVal.as_bool = some true then
              syncMicroTotals micros rest
            else syncMicroTotals (accumEntryMicros micros (compute_multiplier obj) obj) rest
        | none => syncMicroTotals micros rest

/-- The fixed list of micronutrient codes `sync_day` always writes
(src/client.rs:771-777). -/
def allCodes : List Str :=
  [['2', '0', '9'], ['2', '2', '1'], ['2', '5', '5'], ['2', '6', '2'],
   ['2', '6', '9'], ['2', '9', '1'], ['3', '0', '1'], ['3', '0', '3'],
   ['3', '0', '4'], ['3', '0', '5'], ['3', '0', '6'], ['3', '0', '7'],
   ['3', '0', '9'], ['3', '1', '2'], ['3', '1', '5'], ['3', '1', '7'],
   ['3', '2', '0'], ['3', '2', '3'], ['3', '2', '8'], ['4', '0', '1'],
   ['4', '0', '4'], ['4', '0', '5'], ['4', '0', '6'], ['4', '1', '0'],
   ['4', '1', '5'], ['4', '1', '7'], ['4', '1', '8'], ['4', '2', '1'],
   ['4', '3', '0'], ['5', '0', '1'], ['5', '0', '2'], ['5', '0', '3'],
   ['5', '0', '4'], ['5', '0', '5'], ['5', '0', '6'], ['5', '0', '7'],
   ['5', '0', '8'], ['5', '0', '9'], ['5', '1', '0'], ['5', '1', '2'],
   ['5', '3', '9'], ['6', '0', '1'], ['6', '0', '6'], ['6', '2', '1'],
   ['6', '2', '9'], ['6', '4', '5'], ['6', '4', '6'], ['6', '9', '3'],
   ['8', '5', '1'], ['9', '0', '1'], ['9', '0', '2']]

/-- Rendering of an `f64` by `format!` in the summary write.  The claims
proved about the summary depend only on whether a slot holds a string or
an explicit null, never on this text. -/
def ratDisplay (q : Rat) : Str :=
  if q.den = 1 then intToStr q.num
  else intToStr q.num ++ Char.ofNat 47 :: natToStr q.den

/-- The summary object `sync_day` writes under the date's MMDD key
(src/client.rs:779-792): the four macro totals, then every code of
`allCodes`, accumulated codes as strings and the rest as explicit
nulls. -/
def sync_day_summary (entries : List FoodEntry) (raw : List (Str × JVal)) :
    List (Str × JVal) :=
  let t := syncMacroTotals entries
  let micros := syncMicroTotals [] raw
  (['k'], .str (ratDisplay t.1)) :: (['p'], .str (ratDisplay t.2.1))
    :: (['c'], .str (ratDisplay t.2.2.1)) :: (['f'], .str (ratDisplay t.2.2.2))
    :: allCodes.map (fun code =>
        (code,
          match microLookup micros code with
          | some v => JVal.str (ratDisplay v)
          | none => JVal.null))

theorem getKey_cons (a : Str) (b : JVal) (rest : List (Str × JVal)) (q : Str) :
    getKey ((a, b) :: rest) q = if a = q then some b else getKey rest q := by
  by_cases h : a = q <;> simp [getKey, List.find?_cons, h]

theorem getKey_map_code (f : Str → JVal) :
    ∀ (codes : List Str), codes.Nodup → ∀ code ∈ codes,
      getKey (codes.map (fun c => (c, f c))) code = some (f code) := by
  intro codes
  induction codes with
  | nil => intro _ code hmem; simp at hmem
  | cons c rest ih =>
      intro hnd code hmem
      rw [List.map_cons, getKey_cons]
      rcases List.mem_cons.mp hmem with h | h
      · subst h; simp
      · have hcne : c ≠ code := by
          intro he; subst he
          exact (List.nodup_cons.mp hnd).1 h
        rw [if_neg hcne]
        exact ih (List.nodup_cons.mp hnd).2 code h

/-- C4 (amended): the multi-year range scans recover EVERY fetch error —
not only NotFound — by skipping that year, so a scan never surfaces a
fetch error of any kind; `get_food_log` returns an empty list exactly when
the fetch error's text contains `"404"`, and propagates every other error
unchanged. -/
theorem c4_error_propagation_amended :
    (∀ fetch start stop msg,
        get_weight_entries fetch start stop ≠ some (.error msg))
    ∧ (∀ fetch start stop msg,
        get_nutrition fetch start stop ≠ some (.error msg))
    ∧ (∀ fetch start stop msg,
        get_steps fetch start stop ≠ some (.error msg))
    ∧ (∀ e d, containsSubstr e notFoundPat = true →
        get_food_log (.error e) d = .ok [])
    ∧ (∀ e d, containsSubstr e notFoundPat = false →
        get_food_log (.error e) d = .error e) := by
  refine ⟨?_, ?_, ?_, ?_, ?_⟩
  · intro fetch start stop msg h
    unfold get_weight_entries at h
    cases hc : collectScale fetch start stop (yearList start.y stop.y) <;>
      simp [hc] at h
  · intro fetch start stop msg h
    unfold get_nutrition at h
    cases hc : collectNutrition fetch start stop (yearList start.y stop.y) <;>
      simp [hc] at h
  · intro fetch start stop msg h
    unfold get_steps at h
    cases hc : collectSteps fetch start stop (yearList start.y stop.y) <;>
      simp [hc] at h
  · intro e d h
    simp [get_food_log, h]
  · intro e d h
    simp [get_food_log, h]

/-- Witness for `c4_error_propagation_amended` at concrete inputs:
a scan whose every fetch fails authentication surfaces no error, and
`get_food_log` on a 404 / non-404 error text behaves as stated. -/
theorem c4_error_propagation_witness :
    get_weight_entries (fun _ => .error ("auth failed: 401".data))
        ⟨2024, 1, 1⟩ ⟨2024, 12, 31⟩ ≠ some (.error ("auth failed: 401".data))
    ∧ get_food_log (.error ("GET failed: 404 - missing".data)) ⟨2024, 1, 1⟩
        = .ok []
    ∧ get_food_log (.error ("GET failed: 500 - boom".data)) ⟨2024, 1, 1⟩
        = .error ("GET failed: 500 - boom".data) := by
  refine ⟨c4_error_propagation_amended.1 _ _ _ _, ?_, ?_⟩
  · exact c4_error_propagation_amended.2.2.2.1 _ _ (by decide)
  · exact c4_error_propagation_amended.2.2.2.2 _ _ (by decide)

/-- C4 counterexample: the claim as stated says a non-NotFound error —
here a 500 with an authentication-style body — propagates unchanged out of
`get_weight_entries`.  It does not: the scan swallows it and returns an
empty successful result. -/
theorem c4_error_propagation_counterexample :
    get_weight_entries
        (fun _ => .error ("GET users/u/scale/2024 failed: 500 - boom".data))
        ⟨2024, 1, 1⟩ ⟨2024, 12, 31⟩
      = some (.ok [])
    ∧ containsSubstr ("GET users/u/scale/2024 failed: 500 - boom".data)
        notFoundPat = false := by
  constructor
  · unfold get_weight_entries
    have hc : collectScale
        (fun _ => .error ("GET users/u/scale/2024 failed: 500 - boom".data))
        ⟨2024, 1, 1⟩ ⟨2024, 12, 31⟩
        (yearList (Date.mk 2024 1 1).y (Date.mk 2024 12 31).y) = some [] := by
      have hy : yearList (Date.mk 2024 1 1).y (Date.mk 2024 12 31).y = [2024] := by
        decide
      rw [hy]
      rfl
    rw [hc]
    simp [List.mergeSort_nil]
  · decide

theorem syncMacroTotals_skip_deleted (entries : List FoodEntry) :
    syncMacroTotals entries
      = syncMacroTotals (entries.filter (fun e => ¬ e.deleted = some true)) := by
  unfold syncMacroTotals
  suffices h : ∀ acc : Rat × Rat × Rat × Rat,
      entries.foldl
        (fun acc e =>
          if e.deleted = some true then acc
          else (acc.1 + (e.calories.getD 0), acc.2.1 + (e.protein.getD 0),
            acc.2.2.1 + (e.carbs.getD 0), acc.2.2.2 + (e.fat.getD 0))) acc
      = (entries.filter (fun e => ¬ e.deleted = some true)).foldl
        (fun acc e =>
          if e.deleted = some true then acc
          else (acc.1 + (e.calories.getD 0), acc.2.1 + (e.protein.getD 0),
            acc.2.2.1 + (e.carbs.getD 0), acc.2.2.2 + (e.fat.getD 0))) acc by
    exact h _
  induction entries with
  | nil => intro acc; rfl
  | cons e rest ih =>
      intro acc
      by_cases hd : e.deleted = some true
      · have hb : (decide ¬(e.deleted = some true)) = false := by simp [hd]
        rw [List.foldl_cons, if_pos hd, List.filter_cons, hb]
        simp only [Bool.false_eq_true, if_false]
        exact ih acc
      · have hb : (decide ¬(e.deleted = some true)) = true := by simp [hd]
        rw [List.filter_cons, hb]
        simp only [if_true]
        rw [List.foldl_cons, if_neg hd, List.foldl_cons, if_neg hd]
        exact ih _

theorem syncMicroTotals_cons (micros : List (Str × Rat)) (key : Str)
    (val : JVal) (rest : List (Str × JVal)) :
    syncMicroTotals micros ((key, val) :: rest)
      = if startsWithUnderscore key then syncMicroTotals micros rest
        else
          match val.as_object with
          | some obj =>
              if (getKey obj ['d']).bind JVal.as_bool = some true then
                syncMicroTotals micros rest
              else
                syncMicroTotals (accumEntryMicros micros (compute_multiplier obj) obj)
                  rest
          | none => syncMicroTotals micros rest := rfl

theorem syncMicroTotals_skip_deleted :
    ∀ (raw : List (Str × JVal)) (micros : List (Str × Rat)),
      syncMicroTotals micros raw
        = syncMicroTotals micros
            (raw.filter (fun kv => ¬ rawEntryDeleted kv.2 = true)) := by
  intro raw
  induction raw with
  | nil => intro micros; rfl
  | cons kv rest ih =>
      intro micros
      obtain ⟨key, val⟩ := kv
      rw [List.filter_cons, syncMicroTotals_cons]
      by_cases hdel : rawEntryDeleted val = true
      · have hb : (decide ¬(rawEntryDeleted val = true)) = false := by simp [hdel]
        rw [hb]
        simp only [Bool.false_eq_true, if_false]
        unfold rawEntryDeleted at hdel
        cases hval : val.as_object with
        | none => rw [hval] at hdel; simp at hdel
        | some obj =>
            rw [hval] at hdel
            simp only [decide_eq_true_eq] at hdel
            simp only [hval]
            by_cases hu : startsWithUnderscore key = true
            · rw [if_pos hu]; exact ih micros
            · rw [if_neg hu, if_pos hdel]
              exact ih micros
      · have hb : (decide ¬(rawEntryDeleted val = true)) = true := by simp [hdel]
        rw [hb]
        simp only [if_true, syncMicroTotals_cons]
        unfold rawEntryDeleted at hdel
        by_cases hu : startsWithUnderscore key = true
        · rw [if_pos hu, if_pos hu]; exact ih micros
        · rw [if_neg hu, if_neg hu]
          cases hval : val.as_object with
          | none => simp only [hval]; exact ih micros
          | some obj =>
              rw [hval] at hdel
              simp only [decide_eq_true_eq] at hdel
              simp only [hval]
              rw [if_neg hdel, if_neg hdel]
              exact ih _

/-- C5: the summary object `sync_day` writes has key list exactly the four
macro keys followed by the fixed micronutrient codes; every code with no
accumulated contribution is present as an explicit null; and entries whose
deleted flag is true contribute to neither the macro nor the micronutrient
totals (filtering them out first yields the identical summary). -/
theorem c5_sync_summary (entries : List FoodEntry) (raw : List (Str × JVal)) :
    (sync_day_summary entries raw).map Prod.fst
        = ['k'] :: ['p'] :: ['c'] :: ['f'] :: allCodes
    ∧ (∀ code ∈ allCodes,
        microLookup (syncMicroTotals [] raw) code = none →
        getKey (sync_day_summary entries raw) code = some JVal.null)
    ∧ sync_day_summary entries raw
        = sync_day_summary (entries.filter (fun e => ¬ e.deleted = some true))
            (raw.filter (fun kv => ¬ rawEntryDeleted kv.2 = true)) := by
  refine ⟨?_, ?_, ?_⟩
  · simp only [sync_day_summary, List.map_cons, List.map_map, List.cons.injEq,
      true_and]
    have h1 : List.map
        (Prod.fst ∘ fun code => ((code : Str),
          match microLookup (syncMicroTotals [] raw) code with
          | some v => JVal.str (ratDisplay v)
          | none => JVal.null)) allCodes
        = List.map id allCodes :=
      List.map_congr_left (fun a _ => rfl)
    rw [h1, List.map_id]
  · intro code hmem hnone
    have hne : code ≠ ['k'] ∧ code ≠ ['p'] ∧ code ≠ ['c'] ∧ code ≠ ['f'] := by
      revert hmem
      have : ∀ c ∈ allCodes,
          c ≠ ['k'] ∧ c ≠ ['p'] ∧ c ≠ ['c'] ∧ c ≠ ['f'] := by decide
      exact this code
    unfold sync_day_summary
    rw [getKey_cons, if_neg (fun h => hne.1 h.symm),
      getKey_cons, if_neg (fun h => hne.2.1 h.symm),
      getKey_cons, if_neg (fun h => hne.2.2.1 h.symm),
      getKey_cons, if_neg (fun h => hne.2.2.2 h.symm)]
    have hnd : allCodes.Nodup := by decide
    rw [getKey_map_code _ allCodes hnd code hmem, hnone]
  · unfold sync_day_summary
    rw [← syncMacroTotals_skip_deleted, ← syncMicroTotals_skip_deleted]

/-- A food entry marked deleted (for the `c5_sync_summary` witness). -/
def c5deletedEntry : FoodEntry :=
  { c2entryA with deleted := some true }

/-- Witness for `c5_sync_summary`: with one live and one deleted entry and
an empty raw document, the key list is as stated, the unaccumulated code
`301` is written as an explicit null, and the deleted entry contributes
nothing (the summary equals the one computed without it). -/
theorem c5_sync_summary_witness :
    (sync_day_summary [c2entryA, c5deletedEntry] []).map Prod.fst
        = ['k'] :: ['p'] :: ['c'] :: ['f'] :: allCodes
    ∧ getKey (sync_day_summary [c2entryA, c5deletedEntry] []) ['3', '0', '1']
        = some JVal.null
    ∧ sync_day_summary [c2entryA, c5deletedEntry] []
        = sync_day_summary [c2entryA] [] := by
  refine ⟨(c5_sync_summary _ _).1,
    (c5_sync_summary _ _).2.1 ['3', '0', '1'] (by decide) rfl, ?_⟩
  have h := (c5_sync_summary [c2entryA, c5deletedEntry] []).2.2
  have hf : ([c2entryA, c5deletedEntry].filter (fun e => ¬ e.deleted = some true))
      = [c2entryA] := by rfl
  rw [hf] at h
  exact h

/-- A stable sort leaves the subsequence of records sharing one sort key
untouched: filtering the sorted list by a key equals filtering the input. -/
theorem mergeSort_filter_stable {α} (le : α → α → Bool)
    (htrans : ∀ a b c, le a b → le b c → le a c)
    (htotal : ∀ a b, le a b || le b a)
    (p : α → Bool) (hp : ∀ a b, p a = true → p b = true → le a b = true)
    (l : List α) :
    (l.mergeSort le).filter p = l.filter p := by
  have h1 : (l.filter p).Pairwise (fun a b => le a b = true) := by
    refine List.pairwise_of_forall_mem_list ?_
    intro a ha b hb
    exact hp a b (List.mem_filter.mp ha).2 (List.mem_filter.mp hb).2
  have h2 : List.Sublist (l.filter p) l := List.filter_sublist l
  have h3 := List.sublist_mergeSort htrans htotal h1 h2
  have h4 := h3.filter p
  have heq : (l.filter p).filter p = l.filter p :=
    List.filter_eq_self.mpr (fun a ha => (List.mem_filter.mp ha).2)
  rw [heq] at h4
  have h6 : List.Perm ((l.mergeSort le).filter p) (l.filter p) :=
    (List.mergeSort_perm l le).filter p
  exact (h4.eq_of_length h6.length_eq.symm).symm

theorem dateLe_key_trans {α} (key : α → Date) :
    ∀ a b c : α, dateLe (key a) (key b) → dateLe (key b) (key c) →
      dateLe (key a) (key c) :=
  fun a b c hab hbc => dateLe_trans (key a) (key b) (key c) hab hbc

theorem dateLe_key_total {α} (key : α → Date) :
    ∀ a b : α, dateLe (key a) (key b) || dateLe (key b) (key a) := by
  intro a b
  rcases dateLe_total (key a) (key b) with h | h <;> simp [h]

theorem timePairLe_iff (a b : Nat × Nat) :
    timePairLe a b = true ↔ (a.1 < b.1 ∨ (a.1 = b.1 ∧ a.2 ≤ b.2)) := by
  simp [timePairLe]

theorem timePairLe_key_trans {α} (key : α → Nat × Nat) :
    ∀ a b c : α, timePairLe (key a) (key b) → timePairLe (key b) (key c) →
      timePairLe (key a) (key c) := by
  intro a b c hab hbc
  rw [timePairLe_iff] at *
  omega

theorem timePairLe_key_total {α} (key : α → Nat × Nat) :
    ∀ a b : α, timePairLe (key a) (key b) || timePairLe (key b) (key a) := by
  intro a b
  rw [Bool.or_eq_true, timePairLe_iff, timePairLe_iff]
  omega

/-- C8: the year-bucket range scans return their collected records sorted
by date ascending with a stable sort — the sorted output of each scan is
pairwise date-ordered and, for any fixed date, the records of that date
appear exactly as collected — and `get_food_log` returns its entries
sorted by the `(hour, minute)` key (string fields parsed as integers,
defaulting to 0 when missing or unparsable) compared lexicographically. -/
theorem c8_sort_order :
    (∀ fetch (start stop : Date) pre,
        collectScale fetch start stop (yearList start.y stop.y) = some pre →
        get_weight_entries fetch start stop
            = some (.ok (pre.mergeSort (fun a b => dateLe a.date b.date)))
          ∧ (pre.mergeSort (fun a b => dateLe a.date b.date)).Pairwise
              (fun a b => dateLe a.date b.date)
          ∧ ∀ dd : Date,
              (pre.mergeSort (fun a b => dateLe a.date b.date)).filter
                  (fun e => e.date = dd)
                = pre.filter (fun e => e.date = dd))
    ∧ (∀ fetch (start stop : Date) pre,
        collectNutrition fetch start stop (yearList start.y stop.y) = some pre →
        get_nutrition fetch start stop
            = some (.ok (pre.mergeSort (fun a b => dateLe a.date b.date)))
          ∧ (pre.mergeSort (fun a b => dateLe a.date b.date)).Pairwise
              (fun a b => dateLe a.date b.date)
          ∧ ∀ dd : Date,
              (pre.mergeSort (fun a b => dateLe a.date b.date)).filter
                  (fun e => e.date = dd)
                = pre.filter (fun e => e.date = dd))
    ∧ (∀ fetch (start stop : Date) pre,
        collectSteps fetch start stop (yearList start.y stop.y) = some pre →
        get_steps fetch start stop
            = some (.ok (pre.mergeSort (fun a b => dateLe a.date b.date)))
          ∧ (pre.mergeSort (fun a b => dateLe a.date b.date)).Pairwise
              (fun a b => dateLe a.date b.date)
          ∧ ∀ dd : Date,
              (pre.mergeSort (fun a b => dateLe a.date b.date)).filter
                  (fun e => e.date = dd)
                = pre.filter (fun e => e.date = dd))
    ∧ (∀ res (date : Date) l, get_food_log res date = .ok l →
        l.Pairwise (fun a b => timePairLe (foodTimeKey a) (foodTimeKey b))) := by
  refine ⟨?_, ?_, ?_, ?_⟩
  · intro fetch start stop pre hc
    refine ⟨by unfold get_weight_entries; rw [hc]; rfl,
      List.sorted_mergeSort (dateLe_key_trans ScaleEntry.date)
        (dateLe_key_total ScaleEntry.date) pre, ?_⟩
    intro dd
    exact mergeSort_filter_stable _ (dateLe_key_trans ScaleEntry.date)
      (dateLe_key_total ScaleEntry.date) _
      (fun a b ha hb => by
        have ha' : a.date = dd := by simpa using ha
        have hb' : b.date = dd := by simpa using hb
        rw [ha', hb', dateLe_iff]
        omega) pre
  · intro fetch start stop pre hc
    refine ⟨by unfold get_nutrition; rw [hc]; rfl,
      List.sorted_mergeSort (dateLe_key_trans NutritionSummary.date)
        (dateLe_key_total NutritionSummary.date) pre, ?_⟩
    intro dd
    exact mergeSort_filter_stable _ (dateLe_key_trans NutritionSummary.date)
      (dateLe_key_total NutritionSummary.date) _
      (fun a b ha hb => by
        have ha' : a.date = dd := by simpa using ha
        have hb' : b.date = dd := by simpa using hb
        rw [ha', hb', dateLe_iff]
        omega) pre
  · intro fetch start stop pre hc
    refine ⟨by unfold get_steps; rw [hc]; rfl,
      List.sorted_mergeSort (dateLe_key_trans StepEntry.date)
        (dateLe_key_total StepEntry.date) pre, ?_⟩
    intro dd
    exact mergeSort_filter_stable _ (dateLe_key_trans StepEntry.date)
      (dateLe_key_total StepEntry.date) _
      (fun a b ha hb => by
        have ha' : a.date = dd := by simpa using ha
        have hb' : b.date = dd := by simpa using hb
        rw [ha', hb', dateLe_iff]
        omega) pre
  · intro res date l h
    unfold get_food_log at h
    match res with
    | .error e =>
        by_cases h404 : containsSubstr e notFoundPat = true
        · simp only [h404, if_true] at h
          cases h
          exact List.Pairwise.nil
        · simp only [h404] at h
          simp at h
    | .ok doc =>
        simp only [Except.ok.injEq] at h
        subst h
        exact List.sorted_mergeSort
          (timePairLe_key_trans foodTimeKey) (timePairLe_key_total foodTimeKey) _

/-- An empty day document (for the `c8_sort_order` witness). -/
def emptyDoc : FireDoc where
  name := []
  fields := none
  create_time := none
  update_time := none

/-- Witness for `c8_sort_order`: a concrete scan whose every fetch fails
collects nothing and returns the (trivially sorted) empty list, and a food
log read of an empty document is sorted. -/
theorem c8_sort_order_witness :
    get_weight_entries (fun _ => .error ['x']) ⟨2024, 1, 1⟩ ⟨2024, 12, 31⟩
        = some (.ok (List.mergeSort [] (fun a b => dateLe a.date b.date)))
    ∧ (∀ dd : Date,
        (List.mergeSort ([] : List ScaleEntry)
            (fun a b => dateLe a.date b.date)).filter (fun e => e.date = dd)
          = ([] : List ScaleEntry).filter (fun e => e.date = dd))
    ∧ ([] : List FoodEntry).Pairwise
        (fun a b => timePairLe (foodTimeKey a) (foodTimeKey b)) := by
  have hcol : collectScale (fun _ => .error ['x']) ⟨2024, 1, 1⟩ ⟨2024, 12, 31⟩
      (yearList (Date.mk 2024 1 1).y (Date.mk 2024 12 31).y) = some [] := by
    have hy : yearList (Date.mk 2024 1 1).y (Date.mk 2024 12 31).y = [2024] := by
      decide
    rw [hy]
    rfl
  have h := c8_sort_order.1 (fun _ => .error ['x']) ⟨2024, 1, 1⟩ ⟨2024, 12, 31⟩ [] hcol
  refine ⟨h.1, h.2.2, ?_⟩
  exact c8_sort_order.2.2.2 (.ok emptyDoc) ⟨2024, 1, 1⟩ []
    (by simp [get_food_log, emptyDoc, List.mergeSort_nil])

theorem utf8Len_cons (c : Char) (s : Str) :
    utf8Len (c :: s) = c.utf8Size + utf8Len s := by
  simp [utf8Len]

theorem utf8Size_one_of_le {c : Char} (h : c.toNat ≤ 127) : c.utf8Size = 1 := by
  unfold Char.utf8Size
  rw [if_pos]
  rw [UInt32.le_def, BitVec.le_def]
  exact h

theorem takeBytes_spec : ∀ (s : Str) (n : Nat) (t : Str),
    takeBytes s n = some t →
    utf8Len t = n ∧ ∃ r, dropBytes s n = some r ∧ t ++ r = s := by
  intro s
  induction s with
  | nil =>
      intro n t h
      cases n with
      | zero =>
          have ht : t = [] := by
            simpa [takeBytes] using h.symm
          subst ht
          exact ⟨rfl, [], rfl, rfl⟩
      | succ m => simp [takeBytes] at h
  | cons c cs ih =>
      intro n t h
      cases n with
      | zero =>
          have ht : t = [] := by
            simpa [takeBytes] using h.symm
          subst ht
          exact ⟨rfl, c :: cs, rfl, rfl⟩
      | succ m =>
          unfold takeBytes at h
          by_cases hsz : c.utf8Size ≤ m + 1
          · rw [if_pos hsz] at h
            cases ht' : takeBytes cs (m + 1 - c.utf8Size) with
            | none => rw [ht'] at h; simp at h
            | some t' =>
                rw [ht'] at h
                simp only [Option.map_some', Option.some.injEq] at h
                obtain ⟨h1, r, h2, h3⟩ := ih _ _ ht'
                subst h
                refine ⟨by rw [utf8Len_cons, h1]; omega, r, ?_, by rw [List.cons_append, h3]⟩
                unfold dropBytes
                rw [if_pos hsz]
                exact h2
          · rw [if_neg hsz] at h
            simp at h

theorem dropBytes_utf8Len : ∀ (s : Str) (n : Nat) (r : Str),
    dropBytes s n = some r → utf8Len s = n + utf8Len r := by
  intro s
  induction s with
  | nil =>
      intro n r h
      cases n with
      | zero =>
          have : r = [] := by simpa [dropBytes] using h.symm
          subst this
          rfl
      | succ m => simp [dropBytes] at h
  | cons c cs ih =>
      intro n r h
      cases n with
      | zero =>
          have : r = c :: cs := by simpa [dropBytes] using h.symm
          subst this
          omega
      | succ m =>
          unfold dropBytes at h
          by_cases hsz : c.utf8Size ≤ m + 1
          · rw [if_pos hsz] at h
            have := ih _ _ h
            rw [utf8Len_cons, this]
            omega
          · rw [if_neg hsz] at h; simp at h

theorem digitVal_utf8Size {c : Char} (h : (digitVal c).isSome) : c.utf8Size = 1 := by
  unfold digitVal at h
  by_cases hc : 48 ≤ c.toNat ∧ c.toNat ≤ 57
  · exact utf8Size_one_of_le (le_trans hc.2 (by norm_num))
  · rw [if_neg hc] at h; simp at h

theorem parseDigits_chars : ∀ (s : Str) (n : Nat), parseDigits s = some n →
    ∀ c ∈ s, (digitVal c).isSome := by
  intro s
  induction s with
  | nil => intro n h; simp [parseDigits] at h
  | cons c rest ih =>
      intro n h d hd
      cases rest with
      | nil =>
          simp only [List.mem_singleton] at hd
          subst hd
          unfold parseDigits at h
          rw [h]
          rfl
      | cons e rest' =>
          unfold parseDigits at h
          cases hdv : digitVal c with
          | none => rw [hdv] at h; simp at h
          | some dv =>
              rw [hdv] at h
              cases hp : parseDigits (e :: rest') with
              | none => rw [hp] at h; simp at h
              | some pv =>
                  rcases List.mem_cons.mp hd with h1 | h1
                  · subst h1; simp [hdv]
                  · exact ih pv hp d h1

theorem parseSigned_cons (sg : Bool) (c : Char) (rest : Str) :
    parseSigned sg (c :: rest)
      = if c = Char.ofNat 43 then (parseDigits rest).map (false, ·)
        else if c = Char.ofNat 45 then
          (if sg then (parseDigits rest).map (true, ·) else none)
        else (parseDigits (c :: rest)).map (false, ·) := rfl

theorem parseSigned_chars : ∀ (sg : Bool) (s : Str) (b : Bool) (m : Nat),
    parseSigned sg s = some (b, m) → ∀ c ∈ s, c.utf8Size = 1 := by
  intro sg s b m h d hd
  cases s with
  | nil => simp [parseSigned] at h
  | cons c rest =>
      rw [parseSigned_cons] at h
      by_cases hplus : c = Char.ofNat 43
      · rw [if_pos hplus] at h
        cases hp : parseDigits rest with
        | none => rw [hp] at h; simp at h
        | some pv =>
            rcases List.mem_cons.mp hd with h1 | h1
            · subst h1; rw [hplus]; decide
            · exact digitVal_utf8Size (parseDigits_chars rest pv hp d h1)
      · rw [if_neg hplus] at h
        by_cases hminus : c = Char.ofNat 45
        · rw [if_pos hminus] at h
          cases sg with
          | false => simp at h
          | true =>
              simp only [if_true] at h
              cases hp : parseDigits rest with
              | none => rw [hp] at h; simp at h
              | some pv =>
                  rcases List.mem_cons.mp hd with h1 | h1
                  · subst h1; rw [hminus]; decide
                  · exact digitVal_utf8Size (parseDigits_chars rest pv hp d h1)
        · rw [if_neg hminus] at h
          cases hp : parseDigits (c :: rest) with
          | none => rw [hp] at h; simp at h
          | some pv => exact digitVal_utf8Size (parseDigits_chars _ pv hp d hd)

theorem parseU32_chars {s : Str} {m : Nat} (h : parseU32 s = some m) :
    ∀ c ∈ s, c.utf8Size = 1 := by
  unfold parseU32 at h
  cases hp : parseSigned false s with
  | none => rw [hp] at h; simp at h
  | some bm => exact parseSigned_chars false s bm.1 bm.2 (by rw [hp])

theorem utf8Len_eq_length {s : Str} (h : ∀ c ∈ s, c.utf8Size = 1) :
    utf8Len s = s.length := by
  induction s with
  | nil => rfl
  | cons c cs ih =>
      rw [utf8Len_cons, h c (by simp), List.length_cons,
        ih (fun d hd => h d (List.mem_cons_of_mem _ hd))]
      omega

/-- C6 (amended): a year-bucket range scan produces a record for a field
key only if the key does not start with an underscore, has exactly 4
characters, its two-byte halves parse as integers forming a real calendar
date of that year, and that date lies in `[start, stop]`; the spec's two
example keys — `"0230"` in the non-leap year 2023 and `"1301"` — yield no
record.  (The original claim's final clause, that all other keys are
"skipped without error", fails: see the counterexample, a 4-byte key that
panics the byte slicing instead of being skipped.) -/
theorem c6_key_filter_amended (year : Int) (start stop : Date) (key : Str)
    (val : JVal) :
    (∀ rec, processScaleKey year start stop key val = some (some rec) →
        startsWithUnderscore key = false
        ∧ key.length = 4
        ∧ ∃ mm dd m d date,
            takeBytes key 2 = some mm ∧ dropBytes key 2 = some dd
            ∧ parseU32 mm = some m ∧ parseU32 dd = some d
            ∧ fromYmdOpt year m d = some date
            ∧ dateLe start date = true ∧ dateLe date stop = true
            ∧ rec.date = date)
    ∧ (∀ v', processScaleKey 2023 start stop ['0', '2', '3', '0'] v' = some none)
    ∧ (∀ v', processScaleKey year start stop ['1', '3', '0', '1'] v' = some none) := by
  refine ⟨?_, ?_, ?_⟩
  · intro rec h
    unfold processScaleKey at h
    split at h
    · simp at h
    · rename_i hmeta
      push_neg at hmeta
      obtain ⟨hm1, hm2⟩ := hmeta
      have hm1' : startsWithUnderscore key = false := by
        cases hb : startsWithUnderscore key with
        | false => rfl
        | true => exact absurd hb hm1
      split at h
      · rename_i mm dd htb hdb
        split at h
        · rename_i date hfy
          split at h
          · rename_i hin
            -- the date condition forces both halves to have parsed
            have hcond : 1 ≤ (parseU32 mm).getD 0
                ∧ (parseU32 mm).getD 0 ≤ 12
                ∧ 1 ≤ (parseU32 dd).getD 0
                ∧ (parseU32 dd).getD 0 ≤
                    daysInMonth year ((parseU32 mm).getD 0) := by
              unfold fromYmdOpt at hfy
              by_cases hc : 1 ≤ (parseU32 mm).getD 0
                  ∧ (parseU32 mm).getD 0 ≤ 12
                  ∧ 1 ≤ (parseU32 dd).getD 0
                  ∧ (parseU32 dd).getD 0 ≤ daysInMonth year ((parseU32 mm).getD 0)
              · exact hc
              · rw [if_neg hc] at hfy; exact absurd hfy (by simp)
            obtain ⟨hc1, hc2, hc3, hc4⟩ := hcond
            cases hpm : parseU32 mm with
            | none => rw [hpm] at hc1; simp at hc1
            | some m =>
            cases hpd : parseU32 dd with
            | none => rw [hpd] at hc3; simp at hc3
            | some d =>
                have hrec : rec.date = date := by
                  cases hobj : val.as_object with
                  | none => rw [hobj] at h; simp at h
                  | some obj =>
                      rw [hobj] at h
                      simp only [Option.some.injEq] at h
                      rw [← h]
                have hfy' : fromYmdOpt year m d = some date := by
                  rw [hpm, hpd] at hfy
                  exact hfy
                refine ⟨hm1', ?_, mm, dd, m, d, date, htb, hdb, ?_, ?_, hfy',
                  hin.1, hin.2, hrec⟩
                · -- character count: both halves are ASCII, 2 bytes each
                  obtain ⟨hlen2, r, hdrop, happ⟩ := takeBytes_spec key 2 mm htb
                  have hr : r = dd := Option.some.inj (hdrop.symm.trans hdb)
                  rw [hr] at happ
                  have hkey4 : utf8Len key = 2 + utf8Len dd :=
                    dropBytes_utf8Len key 2 dd hdb
                  have hmm2 : mm.length = 2 := by
                    rw [← utf8Len_eq_length (parseU32_chars hpm)]
                    exact hlen2
                  have hdd2 : dd.length = 2 := by
                    rw [← utf8Len_eq_length (parseU32_chars hpd)]
                    omega
                  rw [← happ, List.length_append, hmm2, hdd2]
                · exact hpm
                · exact hpd
          · simp at h
        · simp at h
      · simp at h
  · intro v'
    rfl
  · intro v'
    rfl

/-- Witness for `c6_key_filter_amended`: the key `"0315"` with a weight
object yields a record dated 2024-03-15 (so the only-if conditions hold of
it), and the spec's example key `"0230"` in 2023 yields no record. -/
theorem c6_key_filter_witness :
    (['0', '3', '1', '5'] : Str).length = 4
    ∧ processScaleKey 2023 ⟨2023, 1, 1⟩ ⟨2023, 12, 31⟩ ['0', '2', '3', '0']
        (.obj []) = some none :=
  ⟨((c6_key_filter_amended 2024 ⟨2024, 1, 1⟩ ⟨2024, 12, 31⟩ ['0', '3', '1', '5']
      (.obj [(['w'], .num (.float (141 / 2)))])).1
      ⟨⟨2024, 3, 15⟩, 141 / 2, none, none⟩ rfl).2.1,
   (c6_key_filter_amended 2023 ⟨2023, 1, 1⟩ ⟨2023, 12, 31⟩ [] .null).2.1 (.obj [])⟩

/-- A 4-byte, non-metadata key whose second UTF-8 character straddles byte
index 2: `['a', 'é', 'b']`. -/
def badKey : Str := ['a', 'é', 'b']

/-- C6 counterexample: the claim as stated says every key that yields no
record "is skipped without error", but the 4-byte key `"aéb"` passes the
metadata filter and then panics the byte slicing `key[..2]` (modelled as
`none`), so the scan neither yields a record nor skips it. -/
theorem c6_key_filter_counterexample :
    startsWithUnderscore badKey = false ∧ utf8Len badKey = 4
    ∧ processScaleKey 2024 ⟨2024, 1, 1⟩ ⟨2024, 12, 31⟩ badKey (.obj []) = none := by
  refine ⟨by decide, by decide, rfl⟩

/-- Whether byte offset `n` of a string is a character boundary. -/
def isCharBoundary : Str → Nat → Bool
  | _, 0 => true
  | [], _ + 1 => false
  | c :: cs, n + 1 =>
      if c.utf8Size ≤ n + 1 then isCharBoundary cs (n + 1 - c.utf8Size) else false

theorem takeBytes_isSome_of_boundary : ∀ (s : Str) (n : Nat),
    isCharBoundary s n = true → (takeBytes s n).isSome := by
  intro s
  induction s with
  | nil =>
      intro n h
      cases n with
      | zero => rfl
      | succ m => simp [isCharBoundary] at h
  | cons c cs ih =>
      intro n h
      cases n with
      | zero => rfl
      | succ m =>
          unfold isCharBoundary at h
          by_cases hsz : c.utf8Size ≤ m + 1
          · rw [if_pos hsz] at h
            unfold takeBytes
            rw [if_pos hsz]
            have := ih _ h
            cases htb : takeBytes cs (m + 1 - c.utf8Size) with
            | none => rw [htb] at this; simp at this
            | some t => rfl
          · rw [if_neg hsz] at h; simp at h

theorem dropBytes_isSome_of_boundary : ∀ (s : Str) (n : Nat),
    isCharBoundary s n = true → (dropBytes s n).isSome := by
  intro s
  induction s with
  | nil =>
      intro n h
      cases n with
      | zero => rfl
      | succ m => simp [isCharBoundary] at h
  | cons c cs ih =>
      intro n h
      cases n with
      | zero => rfl
      | succ m =>
          unfold isCharBoundary at h
          by_cases hsz : c.utf8Size ≤ m + 1
          · rw [if_pos hsz] at h
            unfold dropBytes
            rw [if_pos hsz]
            exact ih _ h
          · rw [if_neg hsz] at h; simp at h

/-- C10 (amended): for a field key of byte length 4 whose byte index 2
falls on a character boundary, the slicings `key[..2]` and `key[2..]` are
both well-defined; every all-ASCII key of byte length 4 satisfies that
boundary condition.  (A 4-byte key with a multi-byte character straddling
byte index 2 panics instead: see the counterexample.) -/
theorem c10_slicing_amended (key : Str) :
    (utf8Len key = 4 → isCharBoundary key 2 = true →
        (takeBytes key 2).isSome ∧ (dropBytes key 2).isSome)
    ∧ ((∀ c ∈ key, c.utf8Size = 1) → utf8Len key = 4 →
        isCharBoundary key 2 = true) := by
  constructor
  · intro _ hb
    exact ⟨takeBytes_isSome_of_boundary key 2 hb,
      dropBytes_isSome_of_boundary key 2 hb⟩
  · intro hascii hlen
    cases key with
    | nil => simp [utf8Len] at hlen
    | cons c1 rest =>
        cases rest with
        | nil =>
            rw [utf8Len_cons, hascii c1 (by simp)] at hlen
            simp [utf8Len] at hlen
        | cons c2 rest2 =>
            unfold isCharBoundary
            rw [hascii c1 (by simp)]
            norm_num
            unfold isCharBoundary
            rw [hascii c2 (by simp)]
            norm_num
            cases rest2 <;> rfl

/-- Witness for `c10_slicing_amended` at the concrete ASCII key
`"0315"`. -/
theorem c10_slicing_witness :
    (takeBytes ['0', '3', '1', '5'] 2).isSome
    ∧ (dropBytes ['0', '3', '1', '5'] 2).isSome := by
  have h := c10_slicing_amended ['0', '3', '1', '5']
  exact h.1 (by decide) (h.2 (by decide) (by decide))

/-- C10 counterexample: the 4-byte key `"aéb"` passes the metadata filter
(no leading underscore, byte length 4) yet `key[..2]` is not well-defined:
byte 2 falls inside the multi-byte character `'é'`, so the Rust slicing
panics (modelled as `none`). -/
theorem c10_slicing_counterexample :
    utf8Len badKey = 4 ∧ startsWithUnderscore badKey = false
    ∧ takeBytes badKey 2 = none := by
  refine ⟨by decide, by decide, by decide⟩

/-! Section: Token cache concurrency (src/auth.rs:95-150)

Two concurrent callers of `FirebaseAuth::get_id_token` are modelled as an
interleaving of atomic steps.  Each caller:
locks `cached_token` (pc 0→1), checks it (src/auth.rs:98-103) and releases
the lock (pc 1→2 when absent/expired, 1→10 returning the cached token),
then inside `refresh_id_token` locks `refresh_token`, clones it and
releases (src/auth.rs:110, pc 2→3→4), sends the HTTP refresh request —
OUTSIDE any lock — and awaits it (src/auth.rs:117-126, pc 4→5→6, where
pc = 5 is "refresh in flight"), then re-locks `refresh_token` to store the
new refresh token (src/auth.rs:140, pc 6→7→8) and locks `cached_token` to
store the new ID token (src/auth.rs:144-147, pc 8→9→10).  `cache = none`
models an absent or expired cached token. -/
structure AuthState where
  pc0 : Nat
  pc1 : Nat
  lockRefresh : Option (Fin 2)
  lockCache : Option (Fin 2)
  cache : Option Nat
deriving DecidableEq, Repr

/-- Program counter of a thread. -/
def pc (s : AuthState) (t : Fin 2) : Nat := if t = 0 then s.pc0 else s.pc1

/-- Set a thread's program counter. -/
def setPc (s : AuthState) (t : Fin 2) (v : Nat) : AuthState :=
  if t = 0 then { s with pc0 := v } else { s with pc1 := v }

/-- One atomic step of either caller.  Each `tokio::sync::Mutex` access is
guarded — a lock can only be acquired when free — exactly as the runtime
guarantees; everything between a lock's release and the next acquisition
is unguarded, exactly as the source is written. -/
inductive AuthStep : AuthState → AuthState → Prop
  | lockCacheRead (s : AuthState) (t : Fin 2) :
      pc s t = 0 → s.lockCache = none →
      AuthStep s { setPc s t 1 with lockCache := some t }
  | readFresh (s : AuthState) (t : Fin 2) (tok : Nat) :
      pc s t = 1 → s.lockCache = some t → s.cache = some tok →
      AuthStep s { setPc s t 10 with lockCache := none }
  | readStale (s : AuthState) (t : Fin 2) :
      pc s t = 1 → s.lockCache = some t → s.cache = none →
      AuthStep s { setPc s t 2 with lockCache := none }
  | lockRefreshRead (s : AuthState) (t : Fin 2) :
      pc s t = 2 → s.lockRefresh = none →
      AuthStep s { setPc s t 3 with lockRefresh := some t }
  | cloneRelease (s : AuthState) (t : Fin 2) :
      pc s t = 3 → s.lockRefresh = some t →
      AuthStep s { setPc s t 4 with lockRefresh := none }
  | sendRequest (s : AuthState) (t : Fin 2) :
      pc s t = 4 → AuthStep s (setPc s t 5)
  | recvResponse (s : AuthState) (t : Fin 2) :
      pc s t = 5 → AuthStep s (setPc s t 6)
  | lockRefreshWrite (s : AuthState) (t : Fin 2) :
      pc s t = 6 → s.lockRefresh = none →
      AuthStep s { setPc s t 7 with lockRefresh := some t }
  | writeRefreshRelease (s : AuthState) (t : Fin 2) :
      pc s t = 7 → s.lockRefresh = some t →
      AuthStep s { setPc s t 8 with lockRefresh := none }
  | lockCacheWrite (s : AuthState) (t : Fin 2) :
      pc s t = 8 → s.lockCache = none →
      AuthStep s { setPc s t 9 with lockCache := some t }
  | writeCacheRelease (s : AuthState) (t : Fin 2) (tok : Nat) :
      pc s t = 9 → s.lockCache = some t →
      AuthStep s { setPc s t 10 with lockCache := none, cache := some tok }

/-- Both callers start before the cache check, with an absent/expired
cached token. -/
def authInit : AuthState := ⟨0, 0, none, none, none⟩

/-- Reachable states of the two-caller interleaving. -/
def AuthReach (s : AuthState) : Prop := Relation.ReflTransGen AuthStep authInit s

/-- A thread's refresh request is in flight. -/
def inFlight (s : AuthState) (t : Fin 2) : Prop := pc s t = 5

theorem pc_setPc (s : AuthState) (t : Fin 2) (v : Nat) (u : Fin 2) :
    pc (setPc s t v) u = if u = t then v else pc s u := by
  fin_cases t <;> fin_cases u <;> simp [pc, setPc]

theorem lockRefresh_setPc (s : AuthState) (t : Fin 2) (v : Nat) :
    (setPc s t v).lockRefresh = s.lockRefresh := by
  fin_cases t <;> rfl

theorem lockCache_setPc (s : AuthState) (t : Fin 2) (v : Nat) :
    (setPc s t v).lockCache = s.lockCache := by
  fin_cases t <;> rfl

set_option maxHeartbeats 1000000 in
/-- The per-lock mutual-exclusion invariant: a thread inside a
lock-guarded section holds that lock. -/
theorem authLockInv {s : AuthState} (h : AuthReach s) :
    ∀ t : Fin 2, ((pc s t = 1 ∨ pc s t = 9) → s.lockCache = some t)
      ∧ ((pc s t = 3 ∨ pc s t = 7) → s.lockRefresh = some t) := by
  induction h with
  | refl =>
      intro t
      fin_cases t <;> simp [pc, authInit]
  | tail hab hstep ih =>
      cases hstep with
      | lockCacheRead t hpc hlock =>
          intro u
          obtain ⟨iuC, iuR⟩ := ih u
          clear ih hab
          fin_cases t <;> fin_cases u <;>
            refine ⟨fun hp => ?_, fun hp => ?_⟩ <;>
            simp_all [pc, setPc]
      | readFresh t tok hpc hlock hcache =>
          intro u
          obtain ⟨iuC, iuR⟩ := ih u
          clear ih hab
          fin_cases t <;> fin_cases u <;>
            refine ⟨fun hp => ?_, fun hp => ?_⟩ <;>
            simp_all [pc, setPc]
      | readStale t hpc hlock hcache =>
          intro u
          obtain ⟨iuC, iuR⟩ := ih u
          clear ih hab
          fin_cases t <;> fin_cases u <;>
            refine ⟨fun hp => ?_, fun hp => ?_⟩ <;>
            simp_all [pc, setPc]
      | lockRefreshRead t hpc hlock =>
          intro u
          obtain ⟨iuC, iuR⟩ := ih u
          clear ih hab
          fin_cases t <;> fin_cases u <;>
            refine ⟨fun hp => ?_, fun hp => ?_⟩ <;>
            simp_all [pc, setPc]
      | cloneRelease t hpc hlock =>
          intro u
          obtain ⟨iuC, iuR⟩ := ih u
          clear ih hab
          fin_cases t <;> fin_cases u <;>
            refine ⟨fun hp => ?_, fun hp => ?_⟩ <;>
            simp_all [pc, setPc]
      | sendRequest t hpc =>
          intro u
          obtain ⟨iuC, iuR⟩ := ih u
          clear ih hab
          fin_cases t <;> fin_cases u <;>
            refine ⟨fun hp => ?_, fun hp => ?_⟩ <;>
            simp_all [pc, setPc]
      | recvResponse t hpc =>
          intro u
          obtain ⟨iuC, iuR⟩ := ih u
          clear ih hab
          fin_cases t <;> fin_cases u <;>
            refine ⟨fun hp => ?_, fun hp => ?_⟩ <;>
            simp_all [pc, setPc]
      | lockRefreshWrite t hpc hlock =>
          intro u
          obtain ⟨iuC, iuR⟩ := ih u
          clear ih hab
          fin_cases t <;> fin_cases u <;>
            refine ⟨fun hp => ?_, fun hp => ?_⟩ <;>
            simp_all [pc, setPc]
      | writeRefreshRelease t hpc hlock =>
          intro u
          obtain ⟨iuC, iuR⟩ := ih u
          clear ih hab
          fin_cases t <;> fin_cases u <;>
            refine ⟨fun hp => ?_, fun hp => ?_⟩ <;>
            simp_all [pc, setPc]
      | lockCacheWrite t hpc hlock =>
          intro u
          obtain ⟨iuC, iuR⟩ := ih u
          clear ih hab
          fin_cases t <;> fin_cases u <;>
            refine ⟨fun hp => ?_, fun hp => ?_⟩ <;>
            simp_all [pc, setPc]
      | writeCacheRelease t tok hpc hlock =>
          intro u
          obtain ⟨iuC, iuR⟩ := ih u
          clear ih hab
          fin_cases t <;> fin_cases u <;>
            refine ⟨fun hp => ?_, fun hp => ?_⟩ <;>
            simp_all [pc, setPc]

/-- C3 (amended): each individual mutex-guarded section of the token cache
(the cached-token check and write, and the refresh-token read and write)
is under mutual exclusion — two callers are never inside sections guarded
by the same lock at once.  The refresh HTTP request itself is issued
outside any lock, so the read-check-refresh-write sequence as a whole is
NOT serialized: the counterexample exhibits an interleaving in which both
callers have their own refresh in flight simultaneously. -/
theorem c3_token_refresh_amended (s : AuthState) (h : AuthReach s) :
    (∀ t, (pc s t = 1 ∨ pc s t = 9) → s.lockCache = some t)
    ∧ (∀ t, (pc s t = 3 ∨ pc s t = 7) → s.lockRefresh = some t)
    ∧ ¬ ((pc s 0 = 1 ∨ pc s 0 = 9) ∧ (pc s 1 = 1 ∨ pc s 1 = 9))
    ∧ ¬ ((pc s 0 = 3 ∨ pc s 0 = 7) ∧ (pc s 1 = 3 ∨ pc s 1 = 7)) := by
  have hinv := authLockInv h
  refine ⟨fun t => (hinv t).1, fun t => (hinv t).2, ?_, ?_⟩
  · rintro ⟨h0, h1⟩
    have e0 := (hinv 0).1 h0
    have e1 := (hinv 1).1 h1
    rw [e0] at e1
    exact absurd (Option.some.inj e1) (by decide)
  · rintro ⟨h0, h1⟩
    have e0 := (hinv 0).2 h0
    have e1 := (hinv 1).2 h1
    rw [e0] at e1
    exact absurd (Option.some.inj e1) (by decide)

/-- Witness for `c3_token_refresh_amended`: after one step — caller 0 has
acquired the cached-token lock for its check — the invariant instantiates
to that caller holding the lock. -/
theorem c3_token_refresh_witness :
    (⟨1, 0, none, some 0, none⟩ : AuthState).lockCache = some 0 :=
  (c3_token_refresh_amended ⟨1, 0, none, some 0, none⟩
    (Relation.ReflTransGen.refl.tail
      (AuthStep.lockCacheRead authInit 0 rfl rfl))).1 0 (Or.inl rfl)

/-- C3 counterexample: an explicit interleaving in which both callers of
`get_id_token` observe the absent cached token and each issues its own
refresh — the state with BOTH refresh requests in flight at once is
reachable, so at-most-one-in-flight-refresh does not hold of the code:
every lock is released before the HTTP request is sent. -/
theorem c3_token_refresh_counterexample :
    AuthReach ⟨5, 5, none, none, none⟩
    ∧ inFlight ⟨5, 5, none, none, none⟩ 0
    ∧ inFlight ⟨5, 5, none, none, none⟩ 1 := by
  refine ⟨?_, rfl, rfl⟩
  have r0 : AuthReach authInit := Relation.ReflTransGen.refl
  have r1 : AuthReach ⟨1, 0, none, some 0, none⟩ :=
    r0.tail (AuthStep.lockCacheRead authInit 0 rfl rfl)
  have r2 : AuthReach ⟨2, 0, none, none, none⟩ :=
    r1.tail (AuthStep.readStale _ 0 rfl rfl rfl)
  have r3 : AuthReach ⟨3, 0, some 0, none, none⟩ :=
    r2.tail (AuthStep.lockRefreshRead _ 0 rfl rfl)
  have r4 : AuthReach ⟨4, 0, none, none, none⟩ :=
    r3.tail (AuthStep.cloneRelease _ 0 rfl rfl)
  have r5 : AuthReach ⟨5, 0, none, none, none⟩ :=
    r4.tail (AuthStep.sendRequest _ 0 rfl)
  have r6 : AuthReach ⟨5, 1, none, some 1, none⟩ :=
    r5.tail (AuthStep.lockCacheRead _ 1 rfl rfl)
  have r7 : AuthReach ⟨5, 2, none, none, none⟩ :=
    r6.tail (AuthStep.readStale _ 1 rfl rfl rfl)
  have r8 : AuthReach ⟨5, 3, some 1, none, none⟩ :=
    r7.tail (AuthStep.lockRefreshRead _ 1 rfl rfl)
  have r9 : AuthReach ⟨5, 4, none, none, none⟩ :=
    r8.tail (AuthStep.cloneRelease _ 1 rfl rfl)
  exact r9.tail (AuthStep.sendRequest _ 1 rfl)

